import Mathlib

/-!
# Verification of the prio-server workflow-manager scheduling engine

This file gives a shallow embedding, in Lean 4, of the Go source of
`workflow-manager/main.go` (the scheduling engine, the task types with their
markers and JSON timestamps, and the two task-queue enqueuers), together with
theorems settling the specification claims about it.

Go strings are modelled as `List Char`; Go `time.Time` instants are modelled
as integer nanoseconds counted from Go's zero time (January 1, year 1, UTC);
Go `time.Duration` values are integer nanoseconds.  Calendar rendering
(`time.Time.Format`) is modelled with the standard proleptic-Gregorian
civil-from-days conversion, which is what Go's `absDate` computes.
-/

set_option linter.unusedVariables false

instance {ε α : Type} [DecidableEq ε] [DecidableEq α] :
    DecidableEq (Except ε α) := fun x y =>
  match x, y with
  | .ok a, .ok b => decidable_of_iff (a = b) (by simp)
  | .error a, .error b => decidable_of_iff (a = b) (by simp)
  | .ok _, .error _ => isFalse (by simp)
  | .error _, .ok _ => isFalse (by simp)

namespace WorkflowManager

/-- Go strings, modelled as lists of characters. -/
abbrev GoStr := List Char

/-- Coerce a Lean string literal to a `GoStr`. -/
def str (s : String) : GoStr := s.toList

/-- `strings.Split`-style splitting of a string at every occurrence of a
separator character.  `splitOnChar c s` always returns a non-empty list whose
parts contain no occurrence of `c`. -/
def splitOnChar (c : Char) : GoStr → List GoStr
  | [] => [[]]
  | x :: xs =>
    if x = c then [] :: splitOnChar c xs
    else
      match splitOnChar c xs with
      | [] => [[x]]
      | p :: ps => (x :: p) :: ps

theorem splitOnChar_ne_nil (c : Char) (s : GoStr) : splitOnChar c s ≠ [] := by
  induction s with
  | nil => simp [splitOnChar]
  | cons x xs ih =>
    simp only [splitOnChar]
    split
    · simp
    · split
      · simp
      · simp

theorem not_mem_of_mem_splitOnChar {c : Char} {s : GoStr} {p : GoStr}
    (hp : p ∈ splitOnChar c s) : c ∉ p := by
  induction s generalizing p with
  | nil =>
    simp only [splitOnChar, List.mem_singleton] at hp
    subst hp; simp
  | cons x xs ih =>
    simp only [splitOnChar] at hp
    split at hp
    · rcases List.mem_cons.mp hp with h | h
      · subst h; simp
      · exact ih h
    · rename_i hxc
      rcases hsplit : splitOnChar c xs with _ | ⟨q, qs⟩
      · exact absurd hsplit (splitOnChar_ne_nil c xs)
      · rw [hsplit] at hp
        rcases List.mem_cons.mp hp with h | h
        · subst h
          intro hmem
          rcases List.mem_cons.mp hmem with h' | h'
          · exact hxc h'.symm
          · exact ih (hsplit ▸ List.mem_cons_self q qs) h'
        · exact ih (hsplit ▸ List.mem_cons.mpr (Or.inr h))

theorem mem_of_mem_of_mem_splitOnChar {c d : Char} {s : GoStr} {p : GoStr}
    (hp : p ∈ splitOnChar c s) (hd : d ∈ p) : d ∈ s := by
  induction s generalizing p with
  | nil =>
    simp only [splitOnChar, List.mem_singleton] at hp
    subst hp; simp at hd
  | cons x xs ih =>
    simp only [splitOnChar] at hp
    split at hp
    · rcases List.mem_cons.mp hp with h | h
      · subst h; simp at hd
      · exact List.mem_cons.mpr (Or.inr (ih h hd))
    · rcases hsplit : splitOnChar c xs with _ | ⟨q, qs⟩
      · exact absurd hsplit (splitOnChar_ne_nil c xs)
      · rw [hsplit] at hp
        rcases List.mem_cons.mp hp with h | h
        · subst h
          rcases List.mem_cons.mp hd with h' | h'
          · exact List.mem_cons.mpr (Or.inl h')
          · exact List.mem_cons.mpr
              (Or.inr (ih (hsplit ▸ List.mem_cons_self q qs) h'))
        · exact List.mem_cons.mpr
            (Or.inr (ih (hsplit ▸ List.mem_cons.mpr (Or.inr h)) hd))

theorem splitOnChar_eq_single {c : Char} {s : GoStr} (h : c ∉ s) :
    splitOnChar c s = [s] := by
  induction s with
  | nil => rfl
  | cons x xs ih =>
    simp only [List.mem_cons, not_or] at h
    simp only [splitOnChar]
    rw [if_neg (fun hh => h.1 hh.symm), ih h.2]

theorem splitOnChar_append_cons {c : Char} {p : GoStr} (rest : GoStr)
    (h : c ∉ p) :
    splitOnChar c (p ++ c :: rest) = p :: splitOnChar c rest := by
  induction p with
  | nil => simp [splitOnChar]
  | cons x xs ih =>
    simp only [List.mem_cons, not_or] at h
    simp only [List.cons_append, splitOnChar]
    rw [if_neg (fun hh => h.1 hh.symm)]
    simp only [List.append_eq]
    rw [ih h.2]

/-- The character for a single decimal digit. -/
def digitChar : Nat → Char
  | 0 => '0' | 1 => '1' | 2 => '2' | 3 => '3' | 4 => '4'
  | 5 => '5' | 6 => '6' | 7 => '7' | 8 => '8' | _ => '9'

/-- Rendering of the decimal digits of a natural number, with explicit fuel so
that the definition is structurally recursive (and kernel-reducible). -/
def natDigitsAux : Nat → Nat → List Char
  | 0, _ => []
  | fuel + 1, n =>
    if n < 10 then [digitChar n]
    else natDigitsAux fuel (n / 10) ++ [digitChar (n % 10)]

/-- The decimal digits of a natural number, most significant first. -/
def natDigits (n : Nat) : List Char := natDigitsAux (n + 1) n

/-- A decimal digit character (codes 48-57). -/
def isDigitChar (c : Char) : Bool := 48 ≤ c.toNat && c.toNat ≤ 57

theorem isDigitChar_digitChar (d : Nat) : isDigitChar (digitChar d) = true := by
  match d with
  | 0 | 1 | 2 | 3 | 4 | 5 | 6 | 7 | 8 => decide
  | _ + 9 => rfl

theorem natDigitsAux_digits {fuel n : Nat} {c : Char}
    (hc : c ∈ natDigitsAux fuel n) : isDigitChar c = true := by
  induction fuel generalizing n with
  | zero => simp [natDigitsAux] at hc
  | succ fuel ih =>
    simp only [natDigitsAux] at hc
    split at hc
    · simp only [List.mem_singleton] at hc
      subst hc; exact isDigitChar_digitChar n
    · rcases List.mem_append.mp hc with h | h
      · exact ih h
      · simp only [List.mem_singleton] at h
        subst h; exact isDigitChar_digitChar (n % 10)

theorem natDigits_digits {n : Nat} {c : Char} (hc : c ∈ natDigits n) :
    isDigitChar c = true := natDigitsAux_digits hc

theorem natDigitsAux_length {fuel n w : Nat} (hfuel : n < fuel)
    (hn : n < 10 ^ w) (hw : 1 ≤ w) : (natDigitsAux fuel n).length ≤ w := by
  induction fuel generalizing n w with
  | zero => omega
  | succ fuel ih =>
    simp only [natDigitsAux]
    split
    · simpa using hw
    · rename_i h10
      rcases w with _ | w'
      · rw [pow_zero] at hn; omega
      rcases w' with _ | w''
      · rw [pow_one] at hn; omega
      · have hdivfuel : n / 10 < fuel := by
          have := Nat.div_lt_self (by omega : 0 < n) (by omega : 1 < 10)
          omega
        have hdiv : n / 10 < 10 ^ (w'' + 1) := by
          have h2 : (10 : Nat) ^ (w'' + 1 + 1) = 10 ^ (w'' + 1) * 10 := by ring
          exact (Nat.div_lt_iff_lt_mul (by omega : 0 < 10)).mpr (by omega)
        have := ih hdivfuel hdiv (by omega)
        simp only [List.length_append, List.length_singleton]
        omega

theorem natDigits_length {n w : Nat} (hn : n < 10 ^ w) (hw : 1 ≤ w) :
    (natDigits n).length ≤ w :=
  natDigitsAux_length (Nat.lt_succ_self n) hn hw

theorem natDigits_length_pos (n : Nat) : 1 ≤ (natDigits n).length := by
  unfold natDigits natDigitsAux
  split <;> simp

/-! ## Calendar arithmetic (model of Go `time.Time` formatting)

Instants are integer nanoseconds counted from Go's zero time
(January 1, year 1, 00:00:00 UTC).  `civilFromDays` is the standard
proleptic-Gregorian civil-from-days conversion (the same computation as Go's
`absDate`), taking a count of days since 1970-01-01. -/

/-- Calendar fields of an instant at minute precision. -/
structure DateParts where
  year : Int
  month : Int
  day : Int
  hour : Int
  minute : Int
  deriving DecidableEq, Repr

/-- Year of era (0..399) from a day of era (0..146096). -/
def civilYoe (doe : Int) : Int :=
  (doe - doe / 1460 + doe / 36524 - doe / 146096) / 365

/-- Day of year (0..365, counted from March 1) from a day of era. -/
def civilDoy (doe : Int) : Int :=
  doe - (365 * civilYoe doe + civilYoe doe / 4 - civilYoe doe / 100)

/-- Shifted month index (0 = March .. 11 = February) from a day of era. -/
def civilMp (doe : Int) : Int := (5 * civilDoy doe + 2) / 153

/-- Day of month (1..31) from a day of era. -/
def civilDayOfMonth (doe : Int) : Int :=
  civilDoy doe - (153 * civilMp doe + 2) / 5 + 1

/-- Month (1..12) from a day of era. -/
def civilMonth (doe : Int) : Int :=
  civilMp doe + (if civilMp doe < 10 then 3 else -9)

/-- Convert a count of days since 1970-01-01 into `(year, month, day)` in the
proleptic Gregorian calendar. -/
def civilFromDays (z : Int) : Int × Int × Int :=
  let era := (z + 719468) / 146097
  let doe := (z + 719468) % 146097
  let y := civilYoe doe + era * 400
  let m := civilMonth doe
  let d := civilDayOfMonth doe
  (if m ≤ 2 then y + 1 else y, m, d)

/-- Convert a proleptic-Gregorian date into a count of days since
1970-01-01. -/
def daysFromCivil (y m d : Int) : Int :=
  let ys := y - (if m ≤ 2 then 1 else 0)
  let era := ys / 400
  let yoe := ys - era * 400
  let doy := (153 * (m + (if 2 < m then -3 else 9)) + 2) / 5 + d - 1
  let doe := yoe * 365 + yoe / 4 - yoe / 100 + doy
  era * 146097 + doe - 719468

/-- Nanoseconds per minute. -/
def nsPerMinute : Int := 60000000000

/-- Days from January 1, year 1 to January 1, 1970. -/
def daysToUnixEpoch : Int := 719162

/-- Calendar fields of an instant (nanoseconds since Go's zero time), at
minute precision, in UTC. -/
def dateOf (t : Int) : DateParts :=
  let totalMin := t / nsPerMinute
  let minOfDay := totalMin % 1440
  let days := totalMin / 1440
  let ymd := civilFromDays (days - daysToUnixEpoch)
  ⟨ymd.1, ymd.2.1, ymd.2.2, minOfDay / 60, minOfDay % 60⟩

/-- The instant (nanoseconds since Go's zero time) of a UTC calendar date at
minute precision; used to build concrete test times and by the batch-path
parser. -/
def instantOfDate (y mo d h mi : Int) : Int :=
  ((daysFromCivil y mo d + daysToUnixEpoch) * 1440 + h * 60 + mi) * nsPerMinute

theorem civilDoy_bounds (doe : Int) (h1 : 0 ≤ doe) (h2 : doe < 146097) :
    0 ≤ civilDoy doe ∧ civilDoy doe ≤ 365 := by
  have key : ∀ q1 r1 q2 r2 q3 r3 yoe r4 y4 r5 y100 r6 doy : Int,
      doe = 1460 * q1 + r1 → 0 ≤ r1 → r1 < 1460 →
      doe = 36524 * q2 + r2 → 0 ≤ r2 → r2 < 36524 →
      doe = 146096 * q3 + r3 → 0 ≤ r3 → r3 < 146096 →
      doe - q1 + q2 - q3 = 365 * yoe + r4 → 0 ≤ r4 → r4 < 365 →
      yoe = 4 * y4 + r5 → 0 ≤ r5 → r5 < 4 →
      yoe = 100 * y100 + r6 → 0 ≤ r6 → r6 < 100 →
      doy = doe - (365 * yoe + y4 - y100) →
      0 ≤ doy ∧ doy ≤ 365 := by
    intro q1 r1 q2 r2 q3 r3 yoe r4 y4 r5 y100 r6 doy
    intro hq1 hr1 hr1' hq2 hr2 hr2' hq3 hr3 hr3' hyoe hr4 hr4'
    intro hy4 hr5 hr5' hy100 hr6 hr6' hdoy
    have hq2l : 0 ≤ q2 := by omega
    have hq2u : q2 ≤ 4 := by omega
    have hq3l : 0 ≤ q3 := by omega
    have hq3u : q3 ≤ 1 := by omega
    interval_cases q3 <;> interval_cases q2 <;> omega
  exact key (doe / 1460) (doe % 1460) (doe / 36524) (doe % 36524)
    (doe / 146096) (doe % 146096) (civilYoe doe)
    ((doe - doe / 1460 + doe / 36524 - doe / 146096) % 365)
    (civilYoe doe / 4) (civilYoe doe % 4) (civilYoe doe / 100) (civilYoe doe % 100)
    (civilDoy doe)
    (by omega) (by omega) (by omega) (by omega) (by omega) (by omega)
    (by omega) (by omega) (by omega)
    (by unfold civilYoe; omega) (by omega) (by omega)
    (by omega) (by omega) (by omega) (by omega) (by omega) (by omega)
    (by unfold civilDoy; rfl)

theorem civilMonthDay_bounds (doe : Int) (h1 : 0 ≤ doe) (h2 : doe < 146097) :
    1 ≤ civilMonth doe ∧ civilMonth doe ≤ 12 ∧
    1 ≤ civilDayOfMonth doe ∧ civilDayOfMonth doe ≤ 31 := by
  obtain ⟨hl, hu⟩ := civilDoy_bounds doe h1 h2
  have key : ∀ doy mp rmp q5 rq5 d m : Int,
      0 ≤ doy → doy ≤ 365 →
      5 * doy + 2 = 153 * mp + rmp → 0 ≤ rmp → rmp < 153 →
      153 * mp + 2 = 5 * q5 + rq5 → 0 ≤ rq5 → rq5 < 5 →
      d = doy - q5 + 1 →
      m = mp + (if mp < 10 then 3 else -9) →
      1 ≤ m ∧ m ≤ 12 ∧ 1 ≤ d ∧ d ≤ 31 := by
    intro doy mp rmp q5 rq5 d m hdl hdu hmp hr hr' hq hrq hrq' hd hm
    rcases lt_or_le mp 10 with hlt | hge
    · rw [if_pos hlt] at hm; omega
    · rw [if_neg (not_lt.mpr hge)] at hm; omega
  exact key (civilDoy doe) (civilMp doe) ((5 * civilDoy doe + 2) % 153)
    ((153 * civilMp doe + 2) / 5) ((153 * civilMp doe + 2) % 5)
    (civilDayOfMonth doe) (civilMonth doe)
    hl hu (by unfold civilMp; omega) (by omega) (by omega)
    (by omega) (by omega) (by omega)
    (by unfold civilDayOfMonth; rfl) (by unfold civilMonth; rfl)

theorem civilFromDays_month_day_bounds (z : Int) :
    1 ≤ (civilFromDays z).2.1 ∧ (civilFromDays z).2.1 ≤ 12 ∧
    1 ≤ (civilFromDays z).2.2 ∧ (civilFromDays z).2.2 ≤ 31 := by
  have hb1 := Int.emod_nonneg (z + 719468) (by omega : (146097 : Int) ≠ 0)
  have hb2 := Int.emod_lt_of_pos (z + 719468) (by omega : (0 : Int) < 146097)
  obtain ⟨h1, h2, h3, h4⟩ := civilMonthDay_bounds ((z + 719468) % 146097) hb1 (by omega)
  exact ⟨h1, h2, h3, h4⟩

theorem dateOf_field_bounds (t : Int) :
    1 ≤ (dateOf t).month ∧ (dateOf t).month ≤ 12 ∧
    1 ≤ (dateOf t).day ∧ (dateOf t).day ≤ 31 ∧
    0 ≤ (dateOf t).hour ∧ (dateOf t).hour ≤ 23 ∧
    0 ≤ (dateOf t).minute ∧ (dateOf t).minute ≤ 59 := by
  obtain ⟨h1, h2, h3, h4⟩ :=
    civilFromDays_month_day_bounds (t / nsPerMinute / 1440 - daysToUnixEpoch)
  refine ⟨h1, h2, h3, h4, ?_, ?_, ?_, ?_⟩
  · show (0 : Int) ≤ t / nsPerMinute % 1440 / 60
    omega
  · show t / nsPerMinute % 1440 / 60 ≤ 23
    omega
  · show (0 : Int) ≤ t / nsPerMinute % 1440 % 60
    omega
  · show t / nsPerMinute % 1440 % 60 ≤ 59
    omega

/-! ## Number and date rendering (model of Go's `Time.Format` padding) -/

/-- Zero-padded decimal rendering of a natural number to at least `w`
digits. -/
def padNat (w : Nat) (n : Nat) : GoStr :=
  List.replicate (w - (natDigits n).length) '0' ++ natDigits n

/-- Rendering of an integer, zero-padded to at least `w` digits, with a
leading minus sign when negative (as Go's `appendInt` does). -/
def padInt (w : Nat) (n : Int) : GoStr :=
  if n < 0 then '-' :: padNat w n.natAbs else padNat w n.toNat

/-- Rendering of the format `"2006?01?02?15?04"` with separator `sep`
substituted for `?`, applied to the calendar fields of instant `t`;
Go renders the year to at least four digits and the other fields to two. -/
def renderDate (sep : Char) (dp : DateParts) : GoStr :=
  padInt 4 dp.year ++ sep :: (padInt 2 dp.month ++ sep :: (padInt 2 dp.day
    ++ sep :: (padInt 2 dp.hour ++ sep :: padInt 2 dp.minute)))

/-- Model of Go `fmtTime`: `t.Format("2006/01/02/15/04")` on a UTC instant. -/
def fmtTime (t : Int) : GoStr := renderDate '/' (dateOf t)

/-- Model of `Timestamp.MarkerString`: format `"2006-01-02-15-04"` on a UTC
instant. -/
def markerTimeString (t : Int) : GoStr := renderDate '-' (dateOf t)

/-- Model of Go `strings.ReplaceAll` for single characters. -/
def replaceAllChar (a b : Char) (s : GoStr) : GoStr :=
  s.map fun c => if c = a then b else c

theorem padNat_chars {w n : Nat} {c : Char} (hc : c ∈ padNat w n) :
    isDigitChar c = true := by
  rcases List.mem_append.mp hc with h | h
  · rw [List.eq_of_mem_replicate h]; decide
  · exact natDigits_digits h

theorem padNat_length {w n : Nat} (hn : n < 10 ^ w) (hw : 1 ≤ w) :
    (padNat w n).length = w := by
  have h1 := natDigits_length hn hw
  have h2 := natDigits_length_pos n
  simp only [padNat, List.length_append, List.length_replicate]
  omega

theorem padInt_chars_nonneg {w : Nat} {n : Int} (h : 0 ≤ n) {c : Char}
    (hc : c ∈ padInt w n) : isDigitChar c = true := by
  unfold padInt at hc
  rw [if_neg (by omega)] at hc
  exact padNat_chars hc

theorem padInt_length_of_bounds {w : Nat} {n : Int} (h0 : 0 ≤ n)
    (hn : n < (10 : Int) ^ w) (hw : 1 ≤ w) : (padInt w n).length = w := by
  unfold padInt
  rw [if_neg (by omega)]
  apply padNat_length _ hw
  have : ((n.toNat : Int)) = n := Int.toNat_of_nonneg h0
  have h10 : ((10 : Nat) ^ w : Int) = (10 : Int) ^ w := by push_cast; ring
  omega

theorem padInt_no_sep {w : Nat} {n : Int} {c : Char} (hc : c ∈ padInt w n)
    (hsep : isDigitChar c = false) : c = '-' := by
  unfold padInt at hc
  split at hc
  · rcases List.mem_cons.mp hc with h | h
    · exact h
    · rw [padNat_chars h] at hsep; cases hsep
  · rw [padNat_chars hc] at hsep; cases hsep

/-- Every character of a rendered date is a digit, the separator, or a minus
sign (the latter only from a negative year). -/
theorem renderDate_chars {sep : Char} {dp : DateParts} {c : Char}
    (hc : c ∈ renderDate sep dp) :
    isDigitChar c = true ∨ c = sep ∨ c = '-' := by
  unfold renderDate at hc
  by_cases hd : isDigitChar c = true
  · exact Or.inl hd
  · have hd' : isDigitChar c = false := by
      cases h : isDigitChar c
      · rfl
      · exact absurd h hd
    simp only [List.mem_append, List.mem_cons] at hc
    rcases hc with h | h | h | h | h | h | h | h | h <;>
      first
        | (exact Or.inr (Or.inl h))
        | (exact Or.inr (Or.inr (padInt_no_sep h hd')))

theorem markerTimeString_no_slash {t : Int} : '/' ∉ markerTimeString t := by
  intro hmem
  rcases renderDate_chars hmem with h | h | h
  · exact absurd h (by decide)
  · exact absurd h (by decide)
  · exact absurd h (by decide)

/-! ## Model of the `task` package (tasks and their markers) -/

/-- `task.IntakeBatch`: the payload of an intake task. `date` is the instant
of the batch timestamp. -/
structure IntakeBatch where
  aggregationID : GoStr
  batchID : GoStr
  date : Int
  deriving DecidableEq, Repr

/-- `task.Batch`: one batch of an aggregation task. -/
structure TaskBatch where
  id : GoStr
  time : Int
  deriving DecidableEq, Repr

/-- `task.Aggregation`: the payload of an aggregation task. -/
structure Aggregation where
  aggregationID : GoStr
  aggregationStart : Int
  aggregationEnd : Int
  batches : List TaskBatch
  deriving DecidableEq, Repr

/-- `IntakeBatch.Marker`:
`fmt.Sprintf("intake-%s-%s-%s", i.AggregationID, i.Date.MarkerString(), i.BatchID)`. -/
def IntakeBatch.Marker (i : IntakeBatch) : GoStr :=
  str "intake-" ++ i.aggregationID ++ '-' :: markerTimeString i.date
    ++ '-' :: i.batchID

/-- `Aggregation.Marker`:
`fmt.Sprintf("aggregate-%s-%s-%s", a.AggregationID, a.AggregationStart.MarkerString(), a.AggregationEnd.MarkerString())`. -/
def Aggregation.Marker (a : Aggregation) : GoStr :=
  str "aggregate-" ++ a.aggregationID ++ '-' :: markerTimeString a.aggregationStart
    ++ '-' :: markerTimeString a.aggregationEnd

/-! ## Model of the `batchpath` package

The `batchpath` package is part of this repository but is not under `src/`;
only its caller `main.go` is.  The definitions below are therefore modelled
from the spec (sections 3 and 4.A). -/

/-- A batch descriptor: aggregation ID, batch UUID string, and batch time. -/
structure BatchPath where
  aggregationID : GoStr
  id : GoStr
  time : Int
  deriving DecidableEq, Repr

/-- Outcome of examining one object key. -/
inductive KeyParse where
  | skip
  | fatal
  | found (b : BatchPath) (suffix : GoStr)
  deriving DecidableEq, Repr

/-- Parse a decimal segment; `none` when empty or not all digits. -/
def parseNatSeg (s : GoStr) : Option Nat :=
  if !s.isEmpty && s.all Char.isDigit then
    some (s.foldl (fun a c => a * 10 + (c.toNat - 48)) 0)
  else none

/-- Join parts with a separator (left inverse of `splitOnChar`). -/
def joinSep (c : Char) : List GoStr → GoStr
  | [] => []
  | [p] => p
  | p :: ps => p ++ c :: joinSep c ps

/-- Modelled from the spec: how `batchpath` decodes one object key of the
layout `<aggregation-id>/<yyyy>/<mm>/<dd>/<hh>/<mm>/<batch-uuid>.<suffix>`.
Keys whose shape does not match the layout are skipped; a shaped key whose
timestamp segments do not parse fails the whole listing operation. -/
def parseKey (key : GoStr) : KeyParse :=
  match splitOnChar '/' key with
  | [agg, ys, ms, ds, hs, mins, file] =>
    match splitOnChar '.' file with
    | uuid :: s1 :: srest =>
      match parseNatSeg ys, parseNatSeg ms, parseNatSeg ds,
          parseNatSeg hs, parseNatSeg mins with
      | some y, some mo, some da, some ho, some mi =>
        .found ⟨agg, uuid, instantOfDate y mo da ho mi⟩ (joinSep '.' (s1 :: srest))
      | _, _, _, _, _ => .fatal
    | _ => .skip
  | _ => .skip

/-- Modelled from the spec: `batchpath.ReadyBatches(files, infix)` returns the
descriptors for which all three sibling objects with suffixes `<infix>`,
`<infix>.avro`, `<infix>.sig` exist, skipping unrelated keys, failing on
timestamp parse errors, and collapsing duplicate descriptors. -/
def readyBatches (files : List GoStr) (infx : GoStr) :
    Except Unit (List BatchPath) :=
  if files.any (fun k => parseKey k = .fatal) then .error ()
  else
    let pairs := files.filterMap fun k =>
      match parseKey k with
      | .found b s => some (b, s)
      | _ => none
    let ready := pairs.filterMap fun p =>
      if p.2 = infx ∧ (p.1, infx ++ str ".avro") ∈ pairs
          ∧ (p.1, infx ++ str ".sig") ∈ pairs then
        some p.1
      else none
    .ok ready.dedup

/-! ## Model of `main.go`: intervals, job names, grouping -/

/-- `interval`: a half-open interval of time, including `begin` and excluding
the end, here called `iend` (`end` is a Lean keyword). -/
structure Interval where
  begin : Int
  iend : Int
  deriving DecidableEq, Repr

/-- Go `Time.Truncate`: round down to a multiple of `d` since the zero time
(the identity when `d ≤ 0`). -/
def truncate (t d : Int) : Int := if d ≤ 0 then t else t - t % d

/-- `aggregationInterval`: the interval ending `gracePeriod` before now,
aligned on multiples of `aggregationPeriod` relative to the zero time. -/
def aggregationInterval (now aggregationPeriod gracePeriod : Int) : Interval :=
  let e := truncate (now - gracePeriod) aggregationPeriod
  ⟨e - aggregationPeriod, e⟩

/-- `withinInterval`: the subset of batches within the given half-open
interval (`!bp.Time.Before(inter.begin) && bp.Time.Before(inter.end)`). -/
def withinInterval (batches : List BatchPath) (inter : Interval) :
    List BatchPath :=
  batches.filter fun bp =>
    decide (inter.begin ≤ bp.time) && decide (bp.time < inter.iend)

/-- `[A-Za-z0-9-]` by character code: the complement of the class replaced
by `aggregationJobNameFragment`'s regular expression. -/
def isJobNameChar (c : Char) : Bool :=
  (65 ≤ c.toNat && c.toNat ≤ 90) || (97 ≤ c.toNat && c.toNat ≤ 122)
    || (48 ≤ c.toNat && c.toNat ≤ 57) || c.toNat = 45

/-- ASCII lowering of one character, as Go's `strings.ToLower` acts on the
ASCII range (the only characters reachable here). -/
def goToLower (c : Char) : Char :=
  if 65 ≤ c.toNat && c.toNat ≤ 90 then Char.ofNat (c.toNat + 32) else c

/-- `aggregationJobNameFragment`: replace characters outside `[A-Za-z0-9-]`
with `-`, truncate to `maxLength`, lowercase. -/
def aggregationJobNameFragment (aggregationID : GoStr) (maxLength : Nat) :
    GoStr :=
  let idForJobName := aggregationID.map fun c => if isJobNameChar c then c else '-'
  let idForJobName := idForJobName.take maxLength
  idForJobName.map goToLower

/-- `intakeJobNameForBatchPath`:
`fmt.Sprintf("i-%s-%s-%s", aggregationJobNameFragment(path.AggregationID, 27), strings.ReplaceAll(path.ID, "-", "")[:16], strings.ReplaceAll(fmtTime(path.Time), "/", "-"))`.
The Go slice expression `[:16]` panics when the dash-stripped ID has fewer
than 16 characters; that case is modelled as `none`. -/
def intakeJobNameForBatchPath (path : BatchPath) : Option GoStr :=
  let uuidNoDashes := path.id.filter (· ≠ '-')
  if 16 ≤ uuidNoDashes.length then
    some (str "i-" ++ aggregationJobNameFragment path.aggregationID 27
      ++ '-' :: uuidNoDashes.take 16
      ++ '-' :: replaceAllChar '/' '-' (fmtTime path.time))
  else none

/-- The aggregation task's job name, as constructed in
`enqueueAggregationTasks`:
`fmt.Sprintf("a-%s-%s", aggregationJobNameFragment(aggregationID, 30), strings.ReplaceAll(fmtTime(inter.begin), "/", "-"))`. -/
def aggregationTaskName (aggregationID : GoStr) (intervalBegin : Int) : GoStr :=
  str "a-" ++ aggregationJobNameFragment aggregationID 30
    ++ '-' :: replaceAllChar '/' '-' (fmtTime intervalBegin)

/-- One step of `groupByAggregationID`'s map insertion, on an association
list keyed by aggregation ID. -/
def addToGroup : List (GoStr × List BatchPath) → BatchPath →
    List (GoStr × List BatchPath)
  | [], b => [(b.aggregationID, [b])]
  | (k, l) :: rest, b =>
    if k = b.aggregationID then (k, l ++ [b]) :: rest
    else (k, l) :: addToGroup rest b

/-- `groupByAggregationID`, with the Go map modelled as an association list
in first-appearance order. -/
def groupByAggregationID (batches : List BatchPath) :
    List (GoStr × List BatchPath) :=
  batches.foldl addToGroup []

/-! ## Model of `main.go`: the emission loops and `scheduleTasks`

The enqueuers' asynchronous completions are modelled synchronously: the
environment parameters `publishOk` and `writeOk` give, per marker string, the
outcome of the eventual publish and of a `WriteTaskMarker` call for the task
with that marker.  A completion's only observable effects are whether the
marker is written and whether the started-counter is incremented, so each
completion closure is modelled as a `CompletionEffect`. -/

/-- The observable effects of one completion callback. -/
structure CompletionEffect where
  markerWritten : Bool
  counterInc : Bool
  deriving DecidableEq, Repr

/-- The completion closure passed to `Enqueue` by `enqueueIntakeTasks`:
on a publish error it logs and returns; otherwise it writes the marker, and
on a marker-write error it logs and returns; otherwise it increments the
`intakesStarted` counter. -/
def intakeCompletionEffect (publishOk writeOk : Bool) : CompletionEffect :=
  if !publishOk then ⟨false, false⟩
  else if !writeOk then ⟨false, false⟩
  else ⟨true, true⟩

/-- The completion closure passed to `Enqueue` by `enqueueAggregationTasks`:
on a publish error it logs and returns; otherwise it writes the marker
(logging on a marker-write error without returning) and then increments the
`aggregationsStarted` counter unconditionally. -/
def aggregationCompletionEffect (publishOk writeOk : Bool) : CompletionEffect :=
  if !publishOk then ⟨false, false⟩
  else ⟨writeOk, true⟩

/-- The ways a run can die: a Go panic, a returned error (which `scheduleTasks`
turns into `log.Fatal`), or a listing/parse failure. -/
inductive WMError where
  | slicePanic
  | markerWriteFailed
  | aggregationIDMismatch
  | indexPanic
  | listingError
  deriving DecidableEq, Repr

/-- The counters and effects accumulated by `enqueueIntakeTasks`. -/
structure IntakeState where
  skippedDueToAge : Nat
  skippedDueToMarker : Nat
  scheduled : Nat
  enqueued : List IntakeBatch
  markersWritten : List GoStr
  intakesStarted : Nat
  deriving DecidableEq, Repr

def initIntakeState : IntakeState := ⟨0, 0, 0, [], [], 0⟩

/-- The `task.IntakeBatch` literal built by `enqueueIntakeTasks` for one
batch path. -/
def intakeTaskOf (batch : BatchPath) : IntakeBatch :=
  ⟨batch.aggregationID, batch.id, batch.time⟩

/-- The `for _, batch := range readyBatches` loop of `enqueueIntakeTasks`. -/
def enqueueIntakeTasksLoop (now ageLimit : Int) (taskMarkers : List GoStr)
    (existingJobs : List GoStr) (writeOk publishOk : GoStr → Bool) :
    List BatchPath → IntakeState → Except WMError IntakeState
  | [], st => .ok st
  | batch :: rest, st =>
    let age := now - batch.time
    if ageLimit < age then
      enqueueIntakeTasksLoop now ageLimit taskMarkers existingJobs writeOk
        publishOk rest { st with skippedDueToAge := st.skippedDueToAge + 1 }
    else
      let intakeTask := intakeTaskOf batch
      if intakeTask.Marker ∈ taskMarkers then
        enqueueIntakeTasksLoop now ageLimit taskMarkers existingJobs writeOk
          publishOk rest
          { st with skippedDueToMarker := st.skippedDueToMarker + 1 }
      else
        match intakeJobNameForBatchPath batch with
        | none => .error .slicePanic
        | some taskName =>
          if taskName ∈ existingJobs then
            if writeOk intakeTask.Marker then
              enqueueIntakeTasksLoop now ageLimit taskMarkers existingJobs
                writeOk publishOk rest
                { st with
                  skippedDueToMarker := st.skippedDueToMarker + 1,
                  markersWritten := st.markersWritten ++ [intakeTask.Marker] }
            else .error .markerWriteFailed
          else
            let eff := intakeCompletionEffect (publishOk intakeTask.Marker)
              (writeOk intakeTask.Marker)
            enqueueIntakeTasksLoop now ageLimit taskMarkers existingJobs
              writeOk publishOk rest
              { st with
                scheduled := st.scheduled + 1,
                enqueued := st.enqueued ++ [intakeTask],
                markersWritten := st.markersWritten
                  ++ (if eff.markerWritten then [intakeTask.Marker] else []),
                intakesStarted := st.intakesStarted
                  + (if eff.counterInc then 1 else 0) }

/-- `enqueueIntakeTasks` (main.go lines 512-579). -/
def enqueueIntakeTasks (now : Int) (ready : List BatchPath) (ageLimit : Int)
    (taskMarkers existingJobs : List GoStr) (writeOk publishOk : GoStr → Bool) :
    Except WMError IntakeState :=
  enqueueIntakeTasksLoop now ageLimit taskMarkers existingJobs writeOk
    publishOk ready initIntakeState

/-- The counters and effects accumulated by `enqueueAggregationTasks`. -/
structure AggregationState where
  skippedDueToMarker : Nat
  scheduled : Nat
  enqueued : List Aggregation
  markersWritten : List GoStr
  aggregationsStarted : Nat
  deriving DecidableEq, Repr

def initAggregationState : AggregationState := ⟨0, 0, [], [], 0⟩

/-- The inner `for _, batchPath := range readyBatches` loop of
`enqueueAggregationTasks`: collect `task.Batch` values and fail when a batch
does not carry the group's aggregation ID. -/
def buildBatches (aggregationID : GoStr) :
    List BatchPath → Except WMError (List TaskBatch)
  | [] => .ok []
  | bp :: rest =>
    if bp.aggregationID = aggregationID then
      match buildBatches aggregationID rest with
      | .ok bs => .ok (⟨bp.id, bp.time⟩ :: bs)
      | .error e => .error e
    else .error .aggregationIDMismatch

/-- The `for _, readyBatches := range batchesByID` loop of
`enqueueAggregationTasks`.  `readyBatches[0]` on an empty group is a Go index
panic, modelled as `.error .indexPanic`. -/
def enqueueAggregationTasksLoop (inter : Interval)
    (taskMarkers existingJobs : List GoStr) (writeOk publishOk : GoStr → Bool) :
    List (GoStr × List BatchPath) → AggregationState →
    Except WMError AggregationState
  | [], st => .ok st
  | (_, ready) :: rest, st =>
    match ready with
    | [] => .error .indexPanic
    | first :: _ =>
      let aggregationID := first.aggregationID
      match buildBatches aggregationID ready with
      | .error e => .error e
      | .ok batches =>
        let aggregationTask : Aggregation :=
          ⟨aggregationID, inter.begin, inter.iend, batches⟩
        if aggregationTask.Marker ∈ taskMarkers then
          enqueueAggregationTasksLoop inter taskMarkers existingJobs writeOk
            publishOk rest
            { st with skippedDueToMarker := st.skippedDueToMarker + 1 }
        else
          let taskName := aggregationTaskName aggregationID inter.begin
          if taskName ∈ existingJobs then
            if writeOk aggregationTask.Marker then
              enqueueAggregationTasksLoop inter taskMarkers existingJobs
                writeOk publishOk rest
                { st with
                  skippedDueToMarker := st.skippedDueToMarker + 1,
                  markersWritten :=
                    st.markersWritten ++ [aggregationTask.Marker] }
            else .error .markerWriteFailed
          else
            let eff := aggregationCompletionEffect
              (publishOk aggregationTask.Marker) (writeOk aggregationTask.Marker)
            enqueueAggregationTasksLoop inter taskMarkers existingJobs writeOk
              publishOk rest
              { st with
                scheduled := st.scheduled + 1,
                enqueued := st.enqueued ++ [aggregationTask],
                markersWritten := st.markersWritten
                  ++ (if eff.markerWritten then [aggregationTask.Marker] else []),
                aggregationsStarted := st.aggregationsStarted
                  + (if eff.counterInc then 1 else 0) }

/-- `enqueueAggregationTasks` (main.go lines 423-510). -/
def enqueueAggregationTasks (batchesByID : List (GoStr × List BatchPath))
    (inter : Interval) (taskMarkers existingJobs : List GoStr)
    (writeOk publishOk : GoStr → Bool) : Except WMError AggregationState :=
  if batchesByID.isEmpty then .ok initAggregationState
  else
    enqueueAggregationTasksLoop inter taskMarkers existingJobs writeOk
      publishOk batchesByID initAggregationState

/-- Modelled from the spec: `utils.Index` maps the is-first flag to this
instance's validity index, `0` when first. -/
def utilsIndex (b : Bool) : Nat := if b then 0 else 1

/-- `fmt.Sprintf("validity_%d", utils.Index(b))`. -/
def validityInfix (b : Bool) : GoStr :=
  str "validity_" ++ natDigits (utilsIndex b)

/-- The `task-markers/` key namespace. -/
def taskMarkerKeyOf (m : GoStr) : GoStr := str "task-markers/" ++ m

/-- The marker-set construction of `scheduleTasks`: retain keys with the
prefix `task-markers/`, stripped of the prefix. -/
def taskMarkerSet (ownValidationFiles : List GoStr) : List GoStr :=
  ownValidationFiles.filterMap fun obj =>
    if (str "task-markers/").isPrefixOf obj then
      some (obj.drop (str "task-markers/").length)
    else none

/-- `scheduleTasksConfig`, restricted to the fields `scheduleTasks` consults:
the clock is a fixed instant, the jobs map is consulted only for its key set,
and the enqueuers/bucket are replaced by the `writeOk`/`publishOk`
environment. -/
structure ScheduleTasksConfig where
  isFirst : Bool
  now : Int
  intakeFiles : List GoStr
  ownValidationFiles : List GoStr
  peerValidationFiles : List GoStr
  existingJobs : List GoStr
  maxAge : Int
  aggregationPeriod : Int
  gracePeriod : Int
  deriving DecidableEq, Repr

/-- The observable outcome of a completed `scheduleTasks` run. -/
structure ScheduleTasksResult where
  intake : IntakeState
  agg : AggregationState
  deriving DecidableEq, Repr

/-- All markers written during a run (healing writes and completion
writes, in program order). -/
def ScheduleTasksResult.markersWritten (r : ScheduleTasksResult) : List GoStr :=
  r.intake.markersWritten ++ r.agg.markersWritten

/-- `scheduleTasks` (main.go lines 247-335).  Any `log.Fatal` path is an
`.error`; 24 hours is 86400000000000 nanoseconds. -/
def scheduleTasks (config : ScheduleTasksConfig)
    (writeOk publishOk : GoStr → Bool) : Except WMError ScheduleTasksResult :=
  match readyBatches config.intakeFiles (str "batch") with
  | .error _ => .error .listingError
  | .ok intakeBatches =>
    let taskMarkers := taskMarkerSet config.ownValidationFiles
    let currentIntakeBatches := withinInterval intakeBatches
      ⟨config.now - config.maxAge, config.now + 86400000000000⟩
    match enqueueIntakeTasks config.now currentIntakeBatches config.maxAge
        taskMarkers config.existingJobs writeOk publishOk with
    | .error e => .error e
    | .ok intakeState =>
      match readyBatches config.ownValidationFiles
          (validityInfix config.isFirst) with
      | .error _ => .error .listingError
      | .ok ownValidationBatches =>
        match readyBatches config.peerValidationFiles
            (validityInfix (!config.isFirst)) with
        | .error _ => .error .listingError
        | .ok peerValidationBatches =>
          let ownValidationsSet := ownValidationBatches.map (·.id)
          let aggregationBatches := peerValidationBatches.filter fun b =>
            decide (b.id ∈ ownValidationsSet)
          let inter := aggregationInterval config.now config.aggregationPeriod
            config.gracePeriod
          let windowed := withinInterval aggregationBatches inter
          let aggregationMap := groupByAggregationID windowed
          match enqueueAggregationTasks aggregationMap inter taskMarkers
              config.existingJobs writeOk publishOk with
          | .error e => .error e
          | .ok aggState => .ok ⟨intakeState, aggState⟩

/-! ## Model of the enqueuers' completion-invocation behavior

For one `Enqueue(task, completion)` call, the sequence of arguments with
which the completion function is invoked (in order), as a function of
whether JSON marshalling succeeds, of dry-run mode, and of whether the
publish succeeds.  `none` models a `nil` error. -/

/-- `GCPPubSubEnqueuer.Enqueue` (main.go lines 747-777): on a marshal error,
`completion(err)` then return; in dry-run, `completion(nil)` then return; on
a publish error, `completion(err)` and — because the error branch does not
return — a second `completion(nil)`; on success, `completion(nil)`. -/
def gcpPubSubEnqueueCompletions (marshalOk dryRun publishOk : Bool) :
    List (Option Unit) :=
  if !marshalOk then [some ()]
  else if dryRun then [none]
  else if !publishOk then [some (), none]
  else [none]

/-- `AWSSNSEnqueuer.Enqueue` (main.go lines 804-834): each branch invokes the
completion exactly once and returns. -/
def awsSNSEnqueueCompletions (marshalOk dryRun publishOk : Bool) :
    List (Option Unit) :=
  if !marshalOk then [some ()]
  else if dryRun then [none]
  else if !publishOk then [some ()]
  else [none]

/-! ## Model of `Timestamp` JSON marshalling (location-sensitive) -/

/-- Go `time.Time` as relevant to formatting: an absolute instant together
with the offset, in minutes, of the time-zone location attached to the
value.  `Format` renders the wall clock of the location, i.e. the calendar
fields of `instant + offsetMin` minutes. -/
structure GoTime where
  instant : Int
  offsetMin : Int
  deriving DecidableEq, Repr

/-- `Timestamp.String()` = `Format("2006/01/02/15/04")`, which renders the
wall-clock time in the Time's attached location. -/
def timestampString (t : GoTime) : GoStr :=
  renderDate '/' (dateOf (t.instant + t.offsetMin * nsPerMinute))

/-- `Timestamp.MarshalJSON` = `json.Marshal(t.String())`; none of the
characters produced need JSON escaping, so this is the string in quotes. -/
def timestampMarshalJSON (t : GoTime) : GoStr :=
  '"' :: timestampString t ++ ['"']

/-- The rendering claimed by the spec (and by the type's own doc comment):
the JSON string of the UTC calendar fields of the instant, at minute
precision. -/
def specTimestampJSON (t : GoTime) : GoStr :=
  '"' :: fmtTime t.instant ++ ['"']

/-! ## Character classes and job-name legality -/

/-- `[a-z0-9-]` by character code: the class of the orchestrator job-name
regular expression `^[a-z0-9-]{1,63}$`. -/
def isLowerJobChar (c : Char) : Bool :=
  (97 ≤ c.toNat && c.toNat ≤ 122) || (48 ≤ c.toNat && c.toNat ≤ 57)
    || c.toNat = 45

/-- Whether a string matches `^[a-z0-9-]{1,63}$`. -/
def legalJobName (s : GoStr) : Bool :=
  decide (1 ≤ s.length) && decide (s.length ≤ 63) && s.all isLowerJobChar

/-- A lowercase hexadecimal digit. -/
def isHexLowerChar (c : Char) : Bool :=
  (48 ≤ c.toNat && c.toNat ≤ 57) || (97 ≤ c.toNat && c.toNat ≤ 102)

/-- The canonical textual form of a UUID: five lowercase-hex groups of
lengths 8, 4, 4, 4, 12 joined by dashes (RFC 4122 output form). -/
def isCanonicalUUID (s : GoStr) : Bool :=
  match splitOnChar '-' s with
  | [a, b, c, d, e] =>
    decide (a.length = 8) && decide (b.length = 4) && decide (c.length = 4)
      && decide (d.length = 4) && decide (e.length = 12)
      && (a ++ b ++ c ++ d ++ e).all isHexLowerChar
  | _ => false

end WorkflowManager

namespace WorkflowManager

/-! ## Freshness predicates and witness scenario constants -/

/-- The property C3 asserts of every intake task passed to `Enqueue`: its
marker was absent from the pre-run marker set and its computed job name
absent from the pre-run jobs map. -/
def intakeTaskFresh (taskMarkers existingJobs : List GoStr)
    (t : IntakeBatch) : Prop :=
  t.Marker ∉ taskMarkers ∧
    ∀ n, intakeJobNameForBatchPath ⟨t.aggregationID, t.batchID, t.date⟩ =
      some n → n ∉ existingJobs

/-- The property C3 asserts of every aggregation task passed to `Enqueue`:
its marker was absent from the pre-run marker set, its computed job name
absent from the pre-run jobs map, and it carries the run's aggregation
window. -/
def aggTaskFresh (inter : Interval) (taskMarkers existingJobs : List GoStr)
    (t : Aggregation) : Prop :=
  t.Marker ∉ taskMarkers ∧
    aggregationTaskName t.aggregationID inter.begin ∉ existingJobs ∧
    t.aggregationStart = inter.begin ∧ t.aggregationEnd = inter.iend

/-- One hour in nanoseconds. -/
def hourNs : Int := 3600000000000

/-- The spec's scenario clock: 2021-04-02 10:30 UTC. -/
def witnessNow : Int := instantOfDate 2021 4 2 10 30

/-- A combined happy-path scenario (spec scenarios S1 and S4, with a batch ID
long enough not to trip the job-name slice): one ready intake batch and one
matching own/peer validation pair in the aggregation window. -/
def witnessConfig : ScheduleTasksConfig where
  isFirst := true
  now := witnessNow
  intakeFiles :=
    [str "agg1/2021/04/02/10/00/0123456789abcdef0123.batch",
     str "agg1/2021/04/02/10/00/0123456789abcdef0123.batch.avro",
     str "agg1/2021/04/02/10/00/0123456789abcdef0123.batch.sig"]
  ownValidationFiles :=
    [str "agg1/2021/04/02/07/00/uuid-B.validity_0",
     str "agg1/2021/04/02/07/00/uuid-B.validity_0.avro",
     str "agg1/2021/04/02/07/00/uuid-B.validity_0.sig"]
  peerValidationFiles :=
    [str "agg1/2021/04/02/07/00/uuid-B.validity_1",
     str "agg1/2021/04/02/07/00/uuid-B.validity_1.avro",
     str "agg1/2021/04/02/07/00/uuid-B.validity_1.sig"]
  existingJobs := []
  maxAge := hourNs
  aggregationPeriod := 3 * hourNs
  gracePeriod := hourNs

/-- The intake task scheduled in `witnessConfig`. -/
def witnessIntakeTask : IntakeBatch :=
  ⟨str "agg1", str "0123456789abcdef0123", instantOfDate 2021 4 2 10 0⟩

/-- The aggregation task scheduled in `witnessConfig`. -/
def witnessAggTask : Aggregation :=
  ⟨str "agg1", instantOfDate 2021 4 2 6 0, instantOfDate 2021 4 2 9 0,
    [⟨str "uuid-B", instantOfDate 2021 4 2 7 0⟩]⟩

/-- The outcome of running `scheduleTasks` on `witnessConfig` with every
publish and marker write succeeding. -/
def witnessResult : ScheduleTasksResult :=
  ⟨⟨0, 0, 1, [witnessIntakeTask],
    [str "intake-agg1-2021-04-02-10-00-0123456789abcdef0123"], 1⟩,
   ⟨0, 1, [witnessAggTask],
    [str "aggregate-agg1-2021-04-02-06-00-2021-04-02-09-00"], 1⟩⟩

/-- The outcome of running `scheduleTasks` on `witnessConfig` with every
publish failing: both tasks are enqueued but no marker is written and no
counter incremented. -/
def c2FailResult : ScheduleTasksResult :=
  ⟨⟨0, 0, 1, [witnessIntakeTask], [], 0⟩, ⟨0, 1, [witnessAggTask], [], 0⟩⟩

/-- Healing scenario (spec scenario S6): the intake batch whose orchestrator
job already exists while its marker is missing. -/
def healBatch : BatchPath :=
  ⟨str "agg1", str "0123456789abcdef0123", instantOfDate 2021 4 2 10 0⟩

/-- The pre-existing job name for `healBatch`. -/
def healIntakeJobs : List GoStr :=
  [str "i-agg1-0123456789abcdef-2021-04-02-10-00"]

/-- Outcome of the intake healing scenario: the marker is written, nothing
is enqueued. -/
def healIntakeResult : IntakeState :=
  ⟨0, 1, 0, [], [str "intake-agg1-2021-04-02-10-00-0123456789abcdef0123"], 0⟩

/-- Healing scenario for the aggregation loop: one group whose job already
exists. -/
def healAggGroup : GoStr × List BatchPath :=
  (str "agg1", [⟨str "agg1", str "uuid-B", instantOfDate 2021 4 2 7 0⟩])

/-- The spec S4 aggregation window `[06:00, 09:00)`. -/
def healAggInterval : Interval :=
  ⟨instantOfDate 2021 4 2 6 0, instantOfDate 2021 4 2 9 0⟩

/-- The pre-existing job name for `healAggGroup`. -/
def healAggJobs : List GoStr := [str "a-agg1-2021-04-02-06-00"]

/-- Outcome of the aggregation healing scenario. -/
def healAggResult : AggregationState :=
  ⟨1, 0, [], [str "aggregate-agg1-2021-04-02-06-00-2021-04-02-09-00"], 0⟩

/-- The spec's words for the C5 intersection: the peer-validation
descriptors whose batch ID also appears among the own-validation batch IDs
and whose time lies in the half-open window, keeping their IDs. -/
def specIntersectionIDs (ownB peerB : List BatchPath) (inter : Interval) :
    List GoStr :=
  (peerB.filter fun p => decide (p.id ∈ ownB.map (·.id)) &&
    (decide (inter.begin ≤ p.time) && decide (p.time < inter.iend))).map (·.id)

/-- The own-validation descriptors parsed in `witnessConfig`. -/
def witnessOwnBatches : List BatchPath :=
  [⟨str "agg1", str "uuid-B", instantOfDate 2021 4 2 7 0⟩]

/-- The peer-validation descriptors parsed in `witnessConfig` (identical to
the own ones in this scenario). -/
def witnessPeerBatches : List BatchPath :=
  [⟨str "agg1", str "uuid-B", instantOfDate 2021 4 2 7 0⟩]

/-- `witnessConfig` with a pre-existing marker object for the aggregation
task. -/
def c5Config : ScheduleTasksConfig :=
  { witnessConfig with
    ownValidationFiles := witnessConfig.ownValidationFiles
      ++ [str "task-markers/aggregate-agg1-2021-04-02-06-00-2021-04-02-09-00"] }

/-- The outcome of `c5Config`: the aggregation task is skipped because of
its marker; the intake task is unaffected. -/
def c5Result : ScheduleTasksResult :=
  ⟨⟨0, 0, 1, [witnessIntakeTask],
    [str "intake-agg1-2021-04-02-10-00-0123456789abcdef0123"], 1⟩,
   ⟨1, 0, [], [], 0⟩⟩

/-! ## Loop invariants of the emission loops -/

theorem intakeLoop_markers_mono {now ageLimit : Int}
    {taskMarkers existingJobs : List GoStr} {writeOk publishOk : GoStr → Bool}
    {batches : List BatchPath} {st st' : IntakeState}
    (h : enqueueIntakeTasksLoop now ageLimit taskMarkers existingJobs writeOk
      publishOk batches st = .ok st') :
    ∀ m ∈ st.markersWritten, m ∈ st'.markersWritten := by
  induction batches generalizing st with
  | nil =>
    simp only [enqueueIntakeTasksLoop] at h
    injection h with h2
    subst h2
    exact fun m hm => hm
  | cons b rest ih =>
    simp only [enqueueIntakeTasksLoop] at h
    split at h
    · exact fun m hm => ih h m hm
    · split at h
      · exact fun m hm => ih h m hm
      · split at h
        · cases h
        · split at h
          · split at h
            · exact fun m hm => ih h m (List.mem_append.mpr (Or.inl hm))
            · cases h
          · exact fun m hm => ih h m (List.mem_append.mpr (Or.inl hm))

theorem intakeLoop_enqueued_spec {now ageLimit : Int}
    {taskMarkers existingJobs : List GoStr} {writeOk publishOk : GoStr → Bool}
    {batches : List BatchPath} {st st' : IntakeState}
    (h : enqueueIntakeTasksLoop now ageLimit taskMarkers existingJobs writeOk
      publishOk batches st = .ok st') :
    ∀ t ∈ st'.enqueued, t ∈ st.enqueued ∨
      intakeTaskFresh taskMarkers existingJobs t := by
  induction batches generalizing st with
  | nil =>
    simp only [enqueueIntakeTasksLoop] at h
    injection h with h2
    subst h2
    exact fun t ht => Or.inl ht
  | cons b rest ih =>
    simp only [enqueueIntakeTasksLoop] at h
    split at h
    · exact fun t ht => ih h t ht
    · split at h
      · exact fun t ht => ih h t ht
      · rename_i hmarker
        split at h
        · cases h
        · rename_i taskName hname
          split at h
          · split at h
            · exact fun t ht => ih h t ht
            · cases h
          · rename_i hjobs
            intro t ht
            rcases ih h t ht with hmem | hfresh
            · rcases List.mem_append.mp hmem with hmem' | hmem'
              · exact Or.inl hmem'
              · simp only [List.mem_singleton] at hmem'
                subst hmem'
                refine Or.inr ⟨hmarker, ?_⟩
                intro n hn hnj
                have h4 : intakeJobNameForBatchPath b = some n := hn
                rw [hname] at h4
                injection h4 with h3
                subst h3
                exact hjobs hnj
            · exact Or.inr hfresh

theorem intakeTaskOf_inj {a b : BatchPath} (h : intakeTaskOf a = intakeTaskOf b) :
    a = b := by
  cases a; cases b
  simp only [intakeTaskOf, IntakeBatch.mk.injEq] at h
  simp [h.1, h.2.1, h.2.2]

theorem intakeLoop_heal {now ageLimit : Int}
    {taskMarkers existingJobs : List GoStr} {writeOk publishOk : GoStr → Bool}
    {batches : List BatchPath} {st st' : IntakeState} {b : BatchPath} {n : GoStr}
    (h : enqueueIntakeTasksLoop now ageLimit taskMarkers existingJobs writeOk
      publishOk batches st = .ok st')
    (hb : b ∈ batches) (hage : now - b.time ≤ ageLimit)
    (hmk : (intakeTaskOf b).Marker ∉ taskMarkers)
    (hname : intakeJobNameForBatchPath b = some n) (hjobs : n ∈ existingJobs)
    (hnotin : intakeTaskOf b ∉ st.enqueued) :
    (intakeTaskOf b).Marker ∈ st'.markersWritten ∧
      intakeTaskOf b ∉ st'.enqueued := by
  induction batches generalizing st with
  | nil => cases hb
  | cons x rest ih =>
    have hnotin' : intakeTaskOf b ∉ st'.enqueued := by
      intro hmem
      rcases intakeLoop_enqueued_spec h _ hmem with hold | hfresh
      · exact hnotin hold
      · exact hfresh.2 n hname hjobs
    refine ⟨?_, hnotin'⟩
    rcases List.mem_cons.mp hb with rfl | hbrest
    · simp only [enqueueIntakeTasksLoop] at h
      rw [if_neg (by omega : ¬ageLimit < now - b.time), if_neg hmk] at h
      simp only [hname] at h
      rw [if_pos hjobs] at h
      split at h
      · exact intakeLoop_markers_mono h _
          (List.mem_append.mpr (Or.inr (List.mem_singleton.mpr rfl)))
      · cases h
    · simp only [enqueueIntakeTasksLoop] at h
      split at h
      · exact (ih h hbrest hnotin).1
      · split at h
        · exact (ih h hbrest hnotin).1
        · split at h
          · cases h
          · rename_i taskName' hname'
            split at h
            · split at h
              · exact (ih h hbrest hnotin).1
              · cases h
            · rename_i hjobs'
              refine (ih h hbrest ?_).1
              intro hmem
              rcases List.mem_append.mp hmem with hold | hnew
              · exact hnotin hold
              · simp only [List.mem_singleton] at hnew
                have hx : x = b := intakeTaskOf_inj hnew.symm
                subst hx
                rw [hname] at hname'
                injection hname' with heq
                subst heq
                exact hjobs' hjobs

theorem intakeLoop_heal_write_failure_aborts {now ageLimit : Int}
    {taskMarkers existingJobs : List GoStr} {writeOk publishOk : GoStr → Bool}
    {batches : List BatchPath} {b : BatchPath} {n : GoStr}
    (hb : b ∈ batches) (hage : now - b.time ≤ ageLimit)
    (hmk : (intakeTaskOf b).Marker ∉ taskMarkers)
    (hname : intakeJobNameForBatchPath b = some n) (hjobs : n ∈ existingJobs)
    (hw : writeOk (intakeTaskOf b).Marker = false) :
    ∀ (st : IntakeState) (st' : IntakeState),
      enqueueIntakeTasksLoop now ageLimit taskMarkers existingJobs writeOk
        publishOk batches st ≠ .ok st' := by
  induction batches with
  | nil => cases hb
  | cons x rest ih =>
    intro st st' h
    rcases List.mem_cons.mp hb with rfl | hbrest
    · simp only [enqueueIntakeTasksLoop] at h
      rw [if_neg (by omega : ¬ageLimit < now - b.time), if_neg hmk] at h
      simp only [hname] at h
      rw [if_pos hjobs, hw] at h
      rw [if_neg (by decide : ¬(false = true))] at h
      cases h
    · simp only [enqueueIntakeTasksLoop] at h
      split at h
      · exact ih hbrest _ _ h
      · split at h
        · exact ih hbrest _ _ h
        · split at h
          · cases h
          · split at h
            · split at h
              · exact ih hbrest _ _ h
              · cases h
            · exact ih hbrest _ _ h

theorem aggLoop_markers_mono {inter : Interval}
    {taskMarkers existingJobs : List GoStr} {writeOk publishOk : GoStr → Bool}
    {groups : List (GoStr × List BatchPath)} {st st' : AggregationState}
    (h : enqueueAggregationTasksLoop inter taskMarkers existingJobs writeOk
      publishOk groups st = .ok st') :
    ∀ m ∈ st.markersWritten, m ∈ st'.markersWritten := by
  induction groups generalizing st with
  | nil =>
    simp only [enqueueAggregationTasksLoop] at h
    injection h with h2
    subst h2
    exact fun m hm => hm
  | cons g rest ih =>
    obtain ⟨k, ready⟩ := g
    simp only [enqueueAggregationTasksLoop] at h
    split at h
    · cases h
    · split at h
      · cases h
      · split at h
        · exact fun m hm => ih h m hm
        · split at h
          · split at h
            · exact fun m hm => ih h m (List.mem_append.mpr (Or.inl hm))
            · cases h
          · exact fun m hm => ih h m (List.mem_append.mpr (Or.inl hm))

theorem aggLoop_enqueued_spec {inter : Interval}
    {taskMarkers existingJobs : List GoStr} {writeOk publishOk : GoStr → Bool}
    {groups : List (GoStr × List BatchPath)} {st st' : AggregationState}
    (h : enqueueAggregationTasksLoop inter taskMarkers existingJobs writeOk
      publishOk groups st = .ok st') :
    ∀ t ∈ st'.enqueued, t ∈ st.enqueued ∨
      aggTaskFresh inter taskMarkers existingJobs t := by
  induction groups generalizing st with
  | nil =>
    simp only [enqueueAggregationTasksLoop] at h
    injection h with h2
    subst h2
    exact fun t ht => Or.inl ht
  | cons g rest ih =>
    obtain ⟨k, ready⟩ := g
    simp only [enqueueAggregationTasksLoop] at h
    split at h
    · cases h
    · rename_i first rest0
      split at h
      · cases h
      · rename_i bs hbuild
        split at h
        · exact fun t ht => ih h t ht
        · rename_i hmarker
          split at h
          · split at h
            · exact fun t ht => ih h t ht
            · cases h
          · rename_i hjobs
            intro t ht
            rcases ih h t ht with hmem | hfresh
            · rcases List.mem_append.mp hmem with hmem' | hmem'
              · exact Or.inl hmem'
              · simp only [List.mem_singleton] at hmem'
                subst hmem'
                exact Or.inr ⟨hmarker, hjobs, rfl, rfl⟩
            · exact Or.inr hfresh

theorem aggLoop_heal {inter : Interval}
    {taskMarkers existingJobs : List GoStr} {writeOk publishOk : GoStr → Bool}
    {groups : List (GoStr × List BatchPath)} {st st' : AggregationState}
    {g : GoStr × List BatchPath} {first : BatchPath} {rest0 : List BatchPath}
    {bs : List TaskBatch}
    (h : enqueueAggregationTasksLoop inter taskMarkers existingJobs writeOk
      publishOk groups st = .ok st')
    (hg : g ∈ groups) (hready : g.2 = first :: rest0)
    (hbuild : buildBatches first.aggregationID g.2 = .ok bs)
    (hmk : (⟨first.aggregationID, inter.begin, inter.iend, bs⟩ :
      Aggregation).Marker ∉ taskMarkers)
    (hjobs : aggregationTaskName first.aggregationID inter.begin ∈ existingJobs)
    (hnotin : (⟨first.aggregationID, inter.begin, inter.iend, bs⟩ :
      Aggregation) ∉ st.enqueued) :
    (⟨first.aggregationID, inter.begin, inter.iend, bs⟩ :
        Aggregation).Marker ∈ st'.markersWritten ∧
      (⟨first.aggregationID, inter.begin, inter.iend, bs⟩ :
        Aggregation) ∉ st'.enqueued := by
  induction groups generalizing st with
  | nil => cases hg
  | cons g0 rest ih =>
    have hnotin' : (⟨first.aggregationID, inter.begin, inter.iend, bs⟩ :
        Aggregation) ∉ st'.enqueued := by
      intro hmem
      rcases aggLoop_enqueued_spec h _ hmem with hold | hfresh
      · exact hnotin hold
      · exact hfresh.2.1 hjobs
    refine ⟨?_, hnotin'⟩
    rcases List.mem_cons.mp hg with rfl | hgrest
    · obtain ⟨k, ready⟩ := g
      simp only at hready
      subst hready
      simp only [enqueueAggregationTasksLoop] at h
      simp only at hbuild
      simp only [hbuild] at h
      rw [if_neg hmk, if_pos hjobs] at h
      split at h
      · exact aggLoop_markers_mono h _
          (List.mem_append.mpr (Or.inr (List.mem_singleton.mpr rfl)))
      · cases h
    · obtain ⟨k0, ready0⟩ := g0
      simp only [enqueueAggregationTasksLoop] at h
      split at h
      · cases h
      · rename_i first0 rest00
        split at h
        · cases h
        · rename_i bs0 hbuild0
          split at h
          · exact (ih h hgrest hnotin).1
          · split at h
            · split at h
              · exact (ih h hgrest hnotin).1
              · cases h
            · rename_i hjobs0
              refine (ih h hgrest ?_).1
              intro hmem
              rcases List.mem_append.mp hmem with hold | hnew
              · exact hnotin hold
              · simp only [List.mem_singleton] at hnew
                have heqid : first0.aggregationID = first.aggregationID := by
                  have h5 := congrArg Aggregation.aggregationID hnew
                  simpa using h5.symm
                rw [heqid] at hjobs0
                exact hjobs0 hjobs

theorem aggLoop_heal_write_failure_aborts {inter : Interval}
    {taskMarkers existingJobs : List GoStr} {writeOk publishOk : GoStr → Bool}
    {groups : List (GoStr × List BatchPath)}
    {g : GoStr × List BatchPath} {first : BatchPath} {rest0 : List BatchPath}
    {bs : List TaskBatch}
    (hg : g ∈ groups) (hready : g.2 = first :: rest0)
    (hbuild : buildBatches first.aggregationID g.2 = .ok bs)
    (hmk : (⟨first.aggregationID, inter.begin, inter.iend, bs⟩ :
      Aggregation).Marker ∉ taskMarkers)
    (hjobs : aggregationTaskName first.aggregationID inter.begin ∈ existingJobs)
    (hw : writeOk (⟨first.aggregationID, inter.begin, inter.iend, bs⟩ :
      Aggregation).Marker = false) :
    ∀ (st st' : AggregationState),
      enqueueAggregationTasksLoop inter taskMarkers existingJobs writeOk
        publishOk groups st ≠ .ok st' := by
  induction groups with
  | nil => cases hg
  | cons g0 rest ih =>
    intro st st' h
    rcases List.mem_cons.mp hg with rfl | hgrest
    · obtain ⟨k, ready⟩ := g
      simp only at hready
      subst hready
      simp only [enqueueAggregationTasksLoop] at h
      simp only at hbuild
      simp only [hbuild] at h
      rw [if_neg hmk, if_pos hjobs, hw] at h
      rw [if_neg (by decide : ¬(false = true))] at h
      cases h
    · obtain ⟨k0, ready0⟩ := g0
      simp only [enqueueAggregationTasksLoop] at h
      split at h
      · cases h
      · split at h
        · cases h
        · split at h
          · exact ih hgrest _ _ h
          · split at h
            · split at h
              · exact ih hgrest _ _ h
              · cases h
            · exact ih hgrest _ _ h

theorem buildBatches_mem {aggregationID : GoStr} {l : List BatchPath}
    {bs : List TaskBatch} (h : buildBatches aggregationID l = .ok bs) :
    ∀ tb, tb ∈ bs ↔ ∃ bp ∈ l, tb = (⟨bp.id, bp.time⟩ : TaskBatch) := by
  induction l generalizing bs with
  | nil =>
    simp only [buildBatches] at h
    injection h with h2
    subst h2
    simp
  | cons bp rest ih =>
    simp only [buildBatches] at h
    split at h
    · split at h
      · rename_i bs0 heq
        injection h with h2
        subst h2
        intro tb
        simp only [List.mem_cons]
        constructor
        · rintro (rfl | htb)
          · exact ⟨bp, Or.inl rfl, rfl⟩
          · obtain ⟨bp', hbp', rfl⟩ := (ih heq tb).mp htb
            exact ⟨bp', Or.inr hbp', rfl⟩
        · rintro ⟨bp', rfl | h', rfl⟩
          · exact Or.inl rfl
          · exact Or.inr ((ih heq _).mpr ⟨bp', h', rfl⟩)
      · cases h
    · cases h

theorem addToGroup_mem (acc : List (GoStr × List BatchPath)) (x b : BatchPath) :
    (∃ g ∈ addToGroup acc x, b ∈ g.2) ↔ (∃ g ∈ acc, b ∈ g.2) ∨ b = x := by
  induction acc with
  | nil => simp [addToGroup, eq_comm]
  | cons g0 rest ih =>
    obtain ⟨k, l⟩ := g0
    simp only [addToGroup]
    split
    · simp only [List.mem_cons, List.mem_append, List.mem_singleton]
      constructor
      · rintro ⟨g, hg | hg, hbg⟩
        · subst hg
          rcases List.mem_append.mp hbg with h' | h'
          · exact Or.inl ⟨(k, l), Or.inl rfl, h'⟩
          · simp only [List.mem_singleton] at h'
            exact Or.inr h'
        · exact Or.inl ⟨g, Or.inr hg, hbg⟩
      · rintro (⟨g, hg | hg, hbg⟩ | rfl)
        · subst hg
          exact ⟨(k, l ++ [x]), Or.inl rfl, List.mem_append.mpr (Or.inl hbg)⟩
        · exact ⟨g, Or.inr hg, hbg⟩
        · exact ⟨(k, l ++ [b]), Or.inl rfl,
            List.mem_append.mpr (Or.inr (List.mem_singleton.mpr rfl))⟩
    · simp only [List.mem_cons]
      constructor
      · rintro ⟨g, hg | hg, hbg⟩
        · subst hg
          exact Or.inl ⟨(k, l), Or.inl rfl, hbg⟩
        · rcases (ih).mp ⟨g, hg, hbg⟩ with ⟨g', hg', hbg'⟩ | rfl
          · exact Or.inl ⟨g', Or.inr hg', hbg'⟩
          · exact Or.inr rfl
      · rintro (⟨g, hg | hg, hbg⟩ | rfl)
        · subst hg
          exact ⟨(k, l), Or.inl rfl, hbg⟩
        · obtain ⟨g', hg', hbg'⟩ := (ih).mpr (Or.inl ⟨g, hg, hbg⟩)
          exact ⟨g', Or.inr hg', hbg'⟩
        · obtain ⟨g', hg', hbg'⟩ := (ih).mpr (Or.inr rfl)
          exact ⟨g', Or.inr hg', hbg'⟩

theorem groupBy_mem (batches : List BatchPath) (b : BatchPath) :
    (∃ g ∈ groupByAggregationID batches, b ∈ g.2) ↔ b ∈ batches := by
  have key : ∀ (bl : List BatchPath) (acc : List (GoStr × List BatchPath)),
      (∃ g ∈ List.foldl addToGroup acc bl, b ∈ g.2) ↔
        (∃ g ∈ acc, b ∈ g.2) ∨ b ∈ bl := by
    intro bl
    induction bl with
    | nil => intro acc; simp
    | cons x rest ih =>
      intro acc
      simp only [List.foldl_cons]
      rw [ih (addToGroup acc x), addToGroup_mem]
      simp only [List.mem_cons]
      exact or_assoc
  unfold groupByAggregationID
  rw [key batches []]
  simp

theorem aggLoop_enqueued_batches {inter : Interval}
    {writeOk publishOk : GoStr → Bool}
    {groups : List (GoStr × List BatchPath)} {st st' : AggregationState}
    (h : enqueueAggregationTasksLoop inter [] [] writeOk publishOk groups st =
      .ok st') :
    ∀ tb : TaskBatch, (∃ t ∈ st'.enqueued, tb ∈ t.batches) ↔
      (∃ t ∈ st.enqueued, tb ∈ t.batches) ∨
        ∃ g ∈ groups, ∃ bp ∈ g.2, tb = (⟨bp.id, bp.time⟩ : TaskBatch) := by
  induction groups generalizing st with
  | nil =>
    simp only [enqueueAggregationTasksLoop] at h
    injection h with h2
    subst h2
    simp
  | cons g0 rest ih =>
    obtain ⟨k, ready⟩ := g0
    simp only [enqueueAggregationTasksLoop] at h
    split at h
    · cases h
    · rename_i first rest0
      split at h
      · cases h
      · rename_i bs hbuild
        rw [if_neg (List.not_mem_nil _), if_neg (List.not_mem_nil _)] at h
        intro tb
        rw [ih h tb]
        have hbs := buildBatches_mem hbuild tb
        constructor
        · rintro (hin | hrest)
          · obtain ⟨t, ht, htb⟩ := hin
            rcases List.mem_append.mp ht with ht' | ht'
            · exact Or.inl ⟨t, ht', htb⟩
            · simp only [List.mem_singleton] at ht'
              subst ht'
              obtain ⟨bp, hbp, rfl⟩ := hbs.mp htb
              exact Or.inr ⟨(k, first :: rest0), List.mem_cons_self _ _, bp,
                hbp, rfl⟩
          · obtain ⟨g, hg, bp, hbp, rfl⟩ := hrest
            exact Or.inr ⟨g, List.mem_cons.mpr (Or.inr hg), bp, hbp, rfl⟩
        · rintro (⟨t, ht, htb⟩ | ⟨g, hg, bp, hbp, rfl⟩)
          · exact Or.inl ⟨t, List.mem_append.mpr (Or.inl ht), htb⟩
          · rcases List.mem_cons.mp hg with rfl | hg'
            · refine Or.inl ⟨⟨first.aggregationID, inter.begin, inter.iend,
                bs⟩, List.mem_append.mpr (Or.inr (List.mem_singleton.mpr rfl)),
                ?_⟩
              exact hbs.mpr ⟨bp, hbp, rfl⟩
            · exact Or.inr ⟨g, hg', bp, hbp, rfl⟩

/-! ## Lemmas for idempotence (claim C2) -/

theorem parseKey_marker_skip {m : GoStr} (hm : '/' ∉ m) :
    parseKey (taskMarkerKeyOf m) = .skip := by
  unfold parseKey taskMarkerKeyOf
  have hsplit : splitOnChar '/' (str "task-markers/" ++ m) =
      [str "task-markers", m] := by
    have heq : str "task-markers/" ++ m = str "task-markers" ++ '/' :: m := rfl
    rw [heq, splitOnChar_append_cons m (by decide), splitOnChar_eq_single hm]
  rw [hsplit]

theorem readyBatches_append_skip {files extra : List GoStr} {infx : GoStr}
    (hextra : ∀ k ∈ extra, parseKey k = .skip) :
    readyBatches (files ++ extra) infx = readyBatches files infx := by
  unfold readyBatches
  have hany : (files ++ extra).any (fun k => decide (parseKey k = .fatal)) =
      files.any (fun k => decide (parseKey k = .fatal)) := by
    rw [List.any_append]
    have : extra.any (fun k => decide (parseKey k = .fatal)) = false := by
      rw [List.any_eq_false]
      intro k hk
      simp only [decide_eq_true_eq]
      rw [hextra k hk]
      simp
    rw [this, Bool.or_false]
  have hpairs : (files ++ extra).filterMap (fun k =>
      match parseKey k with
      | .found b s => some (b, s)
      | _ => none) = files.filterMap (fun k =>
      match parseKey k with
      | .found b s => some (b, s)
      | _ => none) := by
    rw [List.filterMap_append]
    have : extra.filterMap (fun k =>
        match parseKey k with
        | .found b s => some (b, s)
        | _ => none) = [] := by
      rw [List.filterMap_eq_nil_iff]
      intro k hk
      rw [hextra k hk]
    rw [this, List.append_nil]
  rw [hany, hpairs]

theorem taskMarkerSet_key (m : GoStr) :
    (if (str "task-markers/").isPrefixOf (taskMarkerKeyOf m) then
      some ((taskMarkerKeyOf m).drop (str "task-markers/").length)
    else none) = some m := by
  rw [if_pos (by rw [List.isPrefixOf_iff_prefix]; exact List.prefix_append _ m)]
  unfold taskMarkerKeyOf
  rw [List.drop_left]

theorem taskMarkerSet_append (files : List GoStr) (ms : List GoStr) :
    taskMarkerSet (files ++ ms.map taskMarkerKeyOf) =
      taskMarkerSet files ++ ms := by
  unfold taskMarkerSet
  rw [List.filterMap_append]
  congr 1
  rw [List.filterMap_map]
  have : ∀ m : GoStr, ((fun obj =>
      if (str "task-markers/").isPrefixOf obj then
        some (obj.drop (str "task-markers/").length)
      else none) ∘ taskMarkerKeyOf) m = some m := fun m => taskMarkerSet_key m
  calc List.filterMap _ ms = ms.filterMap some := by
        apply List.filterMap_congr
        intro m _
        exact this m
    _ = ms := List.filterMap_some ms

theorem parseKey_found_no_slash {k : GoStr} {b : BatchPath} {s : GoStr}
    (h : parseKey k = .found b s) : '/' ∉ b.aggregationID ∧ '/' ∉ b.id := by
  unfold parseKey at h
  split at h
  case h_2 => cases h
  case h_1 agg ys ms ds hs mins file heq =>
    split at h
    case h_2 => cases h
    case h_1 uuid s1 srest heq2 =>
      split at h
      case h_2 => cases h
      case h_1 y mo da ho mi hy hmo hda hho hmi =>
        injection h with hb hs2
        subst hb
        constructor
        · show '/' ∉ agg
          exact not_mem_of_mem_splitOnChar
            (by rw [heq]; exact List.mem_cons_self _ _)
        · show '/' ∉ uuid
          intro hin
          have huuid : uuid ∈ splitOnChar '.' file := by
            rw [heq2]; exact List.mem_cons_self _ _
          have hfile : '/' ∈ file := mem_of_mem_of_mem_splitOnChar huuid hin
          have hfilemem : file ∈ splitOnChar '/' k := by
            rw [heq]; simp
          exact not_mem_of_mem_splitOnChar hfilemem hfile

theorem readyBatches_no_slash {files : List GoStr} {infx : GoStr}
    {out : List BatchPath} (h : readyBatches files infx = .ok out) :
    ∀ b ∈ out, '/' ∉ b.aggregationID ∧ '/' ∉ b.id := by
  unfold readyBatches at h
  split at h
  · cases h
  · injection h with h2
    subst h2
    intro b hb
    rw [List.mem_dedup] at hb
    obtain ⟨p, hp, hbp⟩ := List.mem_filterMap.mp hb
    obtain ⟨k, hk, hparse⟩ := List.mem_filterMap.mp hp
    split at hbp
    · injection hbp with h3
      subst h3
      split at hparse
      case h_1 b' s' hfound =>
        injection hparse with h4
        rw [← h4]
        exact parseKey_found_no_slash hfound
      case h_2 => cases hparse
    · cases hbp

theorem no_slash_append {a c : GoStr} (ha : '/' ∉ a) (hc : '/' ∉ c) :
    '/' ∉ a ++ c := by
  rw [List.mem_append]
  rintro (h | h)
  · exact ha h
  · exact hc h

theorem intakeMarker_no_slash {b : BatchPath} (ha : '/' ∉ b.aggregationID)
    (hid : '/' ∉ b.id) : '/' ∉ (intakeTaskOf b).Marker := by
  intro hmem
  unfold intakeTaskOf IntakeBatch.Marker at hmem
  dsimp only [] at hmem
  rcases List.mem_append.mp hmem with h | h
  · rcases List.mem_append.mp h with h | h
    · rcases List.mem_append.mp h with h | h
      · exact absurd h (by decide)
      · exact ha h
    · rcases List.mem_cons.mp h with h | h
      · cases h
      · exact markerTimeString_no_slash h
  · rcases List.mem_cons.mp h with h | h
    · cases h
    · exact hid h

theorem aggMarker_no_slash {a : Aggregation} (ha : '/' ∉ a.aggregationID) :
    '/' ∉ a.Marker := by
  intro hmem
  unfold Aggregation.Marker at hmem
  rcases List.mem_append.mp hmem with h | h
  · rcases List.mem_append.mp h with h | h
    · rcases List.mem_append.mp h with h | h
      · exact absurd h (by decide)
      · exact ha h
    · rcases List.mem_cons.mp h with h | h
      · cases h
      · exact markerTimeString_no_slash h
  · rcases List.mem_cons.mp h with h | h
    · cases h
    · exact markerTimeString_no_slash h

theorem intakeLoop_written_no_slash {now ageLimit : Int}
    {taskMarkers existingJobs : List GoStr} {writeOk publishOk : GoStr → Bool}
    {batches : List BatchPath} :
    ∀ {st st' : IntakeState},
      enqueueIntakeTasksLoop now ageLimit taskMarkers existingJobs writeOk
        publishOk batches st = .ok st' →
      (∀ b ∈ batches, '/' ∉ b.aggregationID ∧ '/' ∉ b.id) →
      (∀ m ∈ st.markersWritten, '/' ∉ m) →
      ∀ m ∈ st'.markersWritten, '/' ∉ m := by
  induction batches with
  | nil =>
    intro st st' h _ hst
    simp only [enqueueIntakeTasksLoop] at h
    injection h with h2
    subst h2
    exact hst
  | cons x rest ih =>
    intro st st' h hb hst
    have hbrest : ∀ b' ∈ rest, '/' ∉ b'.aggregationID ∧ '/' ∉ b'.id :=
      fun b' hb' => hb b' (List.mem_cons_of_mem _ hb')
    have hbhead := hb x (List.mem_cons_self _ _)
    have hxmk : '/' ∉ (intakeTaskOf x).Marker :=
      intakeMarker_no_slash hbhead.1 hbhead.2
    simp only [enqueueIntakeTasksLoop] at h
    split at h
    · exact ih h hbrest hst
    · split at h
      · exact ih h hbrest hst
      · split at h
        · cases h
        · split at h
          · split at h
            · refine ih h hbrest ?_
              intro m hm
              rcases List.mem_append.mp hm with h' | h'
              · exact hst m h'
              · simp only [List.mem_singleton] at h'
                subst h'
                exact hxmk
            · cases h
          · refine ih h hbrest ?_
            intro m hm
            rcases List.mem_append.mp hm with h' | h'
            · exact hst m h'
            · split at h'
              · simp only [List.mem_singleton] at h'
                subst h'
                exact hxmk
              · cases h'

theorem aggLoop_written_no_slash {inter : Interval}
    {taskMarkers existingJobs : List GoStr} {writeOk publishOk : GoStr → Bool}
    {groups : List (GoStr × List BatchPath)} :
    ∀ {st st' : AggregationState},
      enqueueAggregationTasksLoop inter taskMarkers existingJobs writeOk
        publishOk groups st = .ok st' →
      (∀ g ∈ groups, ∀ b ∈ g.2, '/' ∉ b.aggregationID) →
      (∀ m ∈ st.markersWritten, '/' ∉ m) →
      ∀ m ∈ st'.markersWritten, '/' ∉ m := by
  induction groups with
  | nil =>
    intro st st' h _ hst
    simp only [enqueueAggregationTasksLoop] at h
    injection h with h2
    subst h2
    exact hst
  | cons g rest ih =>
    intro st st' h hg hst
    obtain ⟨k, ready⟩ := g
    have hgrest : ∀ g' ∈ rest, ∀ b ∈ g'.2, '/' ∉ b.aggregationID :=
      fun g' hg' => hg g' (List.mem_cons_of_mem _ hg')
    simp only [enqueueAggregationTasksLoop] at h
    split at h
    · cases h
    · rename_i first rest0
      have hfirst : '/' ∉ first.aggregationID :=
        hg (k, first :: rest0) (List.mem_cons_self _ _) first
          (List.mem_cons_self _ _)
      split at h
      · cases h
      · split at h
        · exact ih h hgrest hst
        · split at h
          · split at h
            · refine ih h hgrest ?_
              intro m hm
              rcases List.mem_append.mp hm with h' | h'
              · exact hst m h'
              · simp only [List.mem_singleton] at h'
                subst h'
                exact aggMarker_no_slash hfirst
            · cases h
          · refine ih h hgrest ?_
            intro m hm
            rcases List.mem_append.mp hm with h' | h'
            · exact hst m h'
            · split at h'
              · simp only [List.mem_singleton] at h'
                subst h'
                exact aggMarker_no_slash hfirst
              · cases h'

theorem intakeLoop_covered {now ageLimit : Int}
    {taskMarkers existingJobs : List GoStr} {writeOk publishOk : GoStr → Bool}
    (hw : ∀ m, writeOk m = true) (hp : ∀ m, publishOk m = true)
    {batches : List BatchPath} :
    ∀ {st st' : IntakeState},
      enqueueIntakeTasksLoop now ageLimit taskMarkers existingJobs writeOk
        publishOk batches st = .ok st' →
      ∀ b ∈ batches, ageLimit < now - b.time ∨
        (intakeTaskOf b).Marker ∈ taskMarkers ∨
        (intakeTaskOf b).Marker ∈ st'.markersWritten := by
  induction batches with
  | nil =>
    intro st st' _ b hb
    cases hb
  | cons x rest ih =>
    intro st st' h b hb
    simp only [enqueueIntakeTasksLoop] at h
    rcases List.mem_cons.mp hb with rfl | hbrest
    · split at h
      · rename_i hage
        exact Or.inl hage
      · split at h
        · rename_i hmk
          exact Or.inr (Or.inl hmk)
        · split at h
          · cases h
          · split at h
            · split at h
              · refine Or.inr (Or.inr ?_)
                exact intakeLoop_markers_mono h _
                  (List.mem_append.mpr (Or.inr (List.mem_singleton.mpr rfl)))
              · cases h
            · refine Or.inr (Or.inr ?_)
              refine intakeLoop_markers_mono h _
                (List.mem_append.mpr (Or.inr ?_))
              have heff : intakeCompletionEffect
                  (publishOk (intakeTaskOf b).Marker)
                  (writeOk (intakeTaskOf b).Marker) = ⟨true, true⟩ := by
                rw [hp, hw]
                rfl
              rw [heff]
              exact List.mem_singleton.mpr rfl
    · split at h
      · exact ih h b hbrest
      · split at h
        · exact ih h b hbrest
        · split at h
          · cases h
          · split at h
            · split at h
              · exact ih h b hbrest
              · cases h
            · exact ih h b hbrest

theorem aggLoop_covered {inter : Interval}
    {taskMarkers existingJobs : List GoStr} {writeOk publishOk : GoStr → Bool}
    (hw : ∀ m, writeOk m = true) (hp : ∀ m, publishOk m = true)
    {groups : List (GoStr × List BatchPath)} :
    ∀ {st st' : AggregationState},
      enqueueAggregationTasksLoop inter taskMarkers existingJobs writeOk
        publishOk groups st = .ok st' →
      ∀ g ∈ groups, ∃ first rest0 bs, g.2 = first :: rest0 ∧
        buildBatches first.aggregationID (first :: rest0) = .ok bs ∧
        ((⟨first.aggregationID, inter.begin, inter.iend, bs⟩ :
            Aggregation).Marker ∈ taskMarkers ∨
          (⟨first.aggregationID, inter.begin, inter.iend, bs⟩ :
            Aggregation).Marker ∈ st'.markersWritten) := by
  induction groups with
  | nil =>
    intro st st' _ g hg
    cases hg
  | cons g0 rest ih =>
    intro st st' h g hg
    obtain ⟨k, ready⟩ := g0
    simp only [enqueueAggregationTasksLoop] at h
    rcases List.mem_cons.mp hg with rfl | hgrest
    · split at h
      · cases h
      · rename_i first rest0
        split at h
        · cases h
        · rename_i bs hbb
          refine ⟨first, rest0, bs, rfl, hbb, ?_⟩
          split at h
          · rename_i hmk
            exact Or.inl hmk
          · split at h
            · split at h
              · refine Or.inr ?_
                exact aggLoop_markers_mono h _
                  (List.mem_append.mpr (Or.inr (List.mem_singleton.mpr rfl)))
              · cases h
            · refine Or.inr ?_
              refine aggLoop_markers_mono h _
                (List.mem_append.mpr (Or.inr ?_))
              have heff : aggregationCompletionEffect
                  (publishOk (⟨first.aggregationID, inter.begin, inter.iend,
                    bs⟩ : Aggregation).Marker)
                  (writeOk (⟨first.aggregationID, inter.begin, inter.iend,
                    bs⟩ : Aggregation).Marker) = ⟨true, true⟩ := by
                rw [hp, hw]
                rfl
              rw [heff]
              exact List.mem_singleton.mpr rfl
    · split at h
      · cases h
      · split at h
        · cases h
        · split at h
          · exact ih h g hgrest
          · split at h
            · split at h
              · exact ih h g hgrest
              · cases h
            · exact ih h g hgrest

theorem intakeLoop_all_marked {now ageLimit : Int}
    {taskMarkers existingJobs : List GoStr} {writeOk publishOk : GoStr → Bool}
    {batches : List BatchPath} :
    (∀ b ∈ batches, ageLimit < now - b.time ∨
      (intakeTaskOf b).Marker ∈ taskMarkers) →
    ∀ st : IntakeState, ∃ st' : IntakeState,
      enqueueIntakeTasksLoop now ageLimit taskMarkers existingJobs writeOk
        publishOk batches st = .ok st' ∧ st'.enqueued = st.enqueued := by
  induction batches with
  | nil =>
    intro _ st
    exact ⟨st, rfl, rfl⟩
  | cons x rest ih =>
    intro hcov st
    have hcovrest : ∀ b ∈ rest, ageLimit < now - b.time ∨
        (intakeTaskOf b).Marker ∈ taskMarkers :=
      fun b hb => hcov b (List.mem_cons_of_mem _ hb)
    by_cases hage : ageLimit < now - x.time
    · obtain ⟨st', hst', he⟩ := ih hcovrest
        { st with skippedDueToAge := st.skippedDueToAge + 1 }
      refine ⟨st', ?_, he⟩
      simp only [enqueueIntakeTasksLoop]
      rw [if_pos hage]
      exact hst'
    · have hmk : (intakeTaskOf x).Marker ∈ taskMarkers := by
        rcases hcov x (List.mem_cons_self _ _) with h' | h'
        · exact absurd h' hage
        · exact h'
      obtain ⟨st', hst', he⟩ := ih hcovrest
        { st with skippedDueToMarker := st.skippedDueToMarker + 1 }
      refine ⟨st', ?_, he⟩
      simp only [enqueueIntakeTasksLoop]
      rw [if_neg hage, if_pos hmk]
      exact hst'

theorem aggLoop_all_marked {inter : Interval}
    {taskMarkers existingJobs : List GoStr} {writeOk publishOk : GoStr → Bool}
    {groups : List (GoStr × List BatchPath)} :
    (∀ g ∈ groups, ∃ first rest0 bs, g.2 = first :: rest0 ∧
      buildBatches first.aggregationID (first :: rest0) = .ok bs ∧
      (⟨first.aggregationID, inter.begin, inter.iend, bs⟩ :
        Aggregation).Marker ∈ taskMarkers) →
    ∀ st : AggregationState, ∃ st' : AggregationState,
      enqueueAggregationTasksLoop inter taskMarkers existingJobs writeOk
        publishOk groups st = .ok st' ∧ st'.enqueued = st.enqueued := by
  induction groups with
  | nil =>
    intro _ st
    exact ⟨st, rfl, rfl⟩
  | cons g0 rest ih =>
    intro hcov st
    have hcovrest := fun g hg => hcov g (List.mem_cons_of_mem _ hg)
    obtain ⟨first, rest0, bs, hready0, hbb, hmk⟩ :=
      hcov g0 (List.mem_cons_self _ _)
    obtain ⟨k, ready⟩ := g0
    have hready : ready = first :: rest0 := hready0
    subst hready
    obtain ⟨st', hst', he⟩ := ih hcovrest
      { st with skippedDueToMarker := st.skippedDueToMarker + 1 }
    refine ⟨st', ?_, he⟩
    simp only [enqueueAggregationTasksLoop]
    rw [hbb]
    dsimp only []
    rw [if_pos hmk]
    exact hst'

theorem enqueueAggregationTasks_covered {inter : Interval}
    {taskMarkers existingJobs : List GoStr} {writeOk publishOk : GoStr → Bool}
    (hw : ∀ m, writeOk m = true) (hp : ∀ m, publishOk m = true)
    {groups : List (GoStr × List BatchPath)} {ast : AggregationState}
    (h : enqueueAggregationTasks groups inter taskMarkers existingJobs
      writeOk publishOk = .ok ast) :
    ∀ g ∈ groups, ∃ first rest0 bs, g.2 = first :: rest0 ∧
      buildBatches first.aggregationID (first :: rest0) = .ok bs ∧
      ((⟨first.aggregationID, inter.begin, inter.iend, bs⟩ :
          Aggregation).Marker ∈ taskMarkers ∨
        (⟨first.aggregationID, inter.begin, inter.iend, bs⟩ :
          Aggregation).Marker ∈ ast.markersWritten) := by
  unfold enqueueAggregationTasks at h
  split at h
  · rename_i hempty
    rw [List.isEmpty_iff] at hempty
    subst hempty
    intro g hg
    cases hg
  · exact aggLoop_covered hw hp h

theorem enqueueAggregationTasks_all_marked {inter : Interval}
    {taskMarkers existingJobs : List GoStr} {writeOk publishOk : GoStr → Bool}
    {groups : List (GoStr × List BatchPath)}
    (hcov : ∀ g ∈ groups, ∃ first rest0 bs, g.2 = first :: rest0 ∧
      buildBatches first.aggregationID (first :: rest0) = .ok bs ∧
      (⟨first.aggregationID, inter.begin, inter.iend, bs⟩ :
        Aggregation).Marker ∈ taskMarkers) :
    ∃ ast : AggregationState,
      enqueueAggregationTasks groups inter taskMarkers existingJobs writeOk
        publishOk = .ok ast ∧ ast.enqueued = [] := by
  unfold enqueueAggregationTasks
  split
  · exact ⟨initAggregationState, rfl, rfl⟩
  · obtain ⟨st', hst', he⟩ := aggLoop_all_marked hcov initAggregationState
    exact ⟨st', hst', he⟩

theorem mem_windowed_iff (ownB peerB : List BatchPath) (inter : Interval)
    (p : BatchPath) :
    p ∈ withinInterval (peerB.filter fun b => decide (b.id ∈ ownB.map (·.id)))
        inter ↔
      p ∈ peerB ∧ p.id ∈ ownB.map (·.id) ∧ inter.begin ≤ p.time ∧
        p.time < inter.iend := by
  unfold withinInterval
  simp only [List.mem_filter, Bool.and_eq_true, decide_eq_true_eq]
  tauto

theorem mem_specIntersectionIDs_iff (ownB peerB : List BatchPath)
    (inter : Interval) (idv : GoStr) :
    idv ∈ specIntersectionIDs ownB peerB inter ↔
      ∃ p ∈ peerB, p.id = idv ∧ p.id ∈ ownB.map (·.id) ∧
        inter.begin ≤ p.time ∧ p.time < inter.iend := by
  unfold specIntersectionIDs
  simp only [List.mem_map, List.mem_filter, Bool.and_eq_true,
    decide_eq_true_eq]
  constructor
  · rintro ⟨p, ⟨hp, hid, hb, he⟩, rfl⟩
    exact ⟨p, hp, rfl, hid, hb, he⟩
  · rintro ⟨p, hp, rfl, hid, hb, he⟩
    exact ⟨p, ⟨hp, hid, hb, he⟩, rfl⟩

/-! ## Claim theorems -/

theorem char_toNat_ofNat {n : Nat} (h : n < 55296) :
    (Char.ofNat n).toNat = n := by
  unfold Char.ofNat
  rw [dif_pos (Or.inl h)]
  rfl

theorem joinSep_splitOnChar (c : Char) (s : GoStr) :
    joinSep c (splitOnChar c s) = s := by
  induction s with
  | nil => rfl
  | cons x xs ih =>
    simp only [splitOnChar]
    split
    · rename_i hx
      subst hx
      rcases hsplit : splitOnChar x xs with _ | ⟨q, qs⟩
      · exact absurd hsplit (splitOnChar_ne_nil x xs)
      · rw [hsplit] at ih
        cases qs <;> simp_all [joinSep]
    · rcases hsplit : splitOnChar c xs with _ | ⟨q, qs⟩
      · exact absurd hsplit (splitOnChar_ne_nil c xs)
      · rw [hsplit] at ih
        cases qs <;> simp_all [joinSep]

theorem hexLower_isLowerJob {c : Char} (h : isHexLowerChar c = true) :
    isLowerJobChar c = true := by
  unfold isHexLowerChar at h
  unfold isLowerJobChar
  simp only [Bool.or_eq_true, Bool.and_eq_true, decide_eq_true_eq] at h ⊢
  omega

theorem digit_isLowerJob {c : Char} (h : isDigitChar c = true) :
    isLowerJobChar c = true := by
  unfold isDigitChar at h
  unfold isLowerJobChar
  simp only [Bool.or_eq_true, Bool.and_eq_true, decide_eq_true_eq] at h ⊢
  omega

theorem goToLower_lower {c : Char} (h : isJobNameChar c = true) :
    isLowerJobChar (goToLower c) = true := by
  unfold goToLower
  by_cases hu : (65 ≤ c.toNat && c.toNat ≤ 90) = true
  · rw [if_pos hu]
    simp only [Bool.and_eq_true, decide_eq_true_eq] at hu
    have ht : (Char.ofNat (c.toNat + 32)).toNat = c.toNat + 32 :=
      char_toNat_ofNat (by omega)
    unfold isLowerJobChar
    rw [ht]
    simp only [Bool.or_eq_true, Bool.and_eq_true, decide_eq_true_eq]
    omega
  · rw [if_neg hu]
    have hu' : ¬(65 ≤ c.toNat ∧ c.toNat ≤ 90) := by simpa using hu
    unfold isJobNameChar at h
    unfold isLowerJobChar
    simp only [Bool.or_eq_true, Bool.and_eq_true, decide_eq_true_eq] at h ⊢
    omega

theorem frag_chars {aggID : GoStr} {n : Nat} {c : Char}
    (hc : c ∈ aggregationJobNameFragment aggID n) : isLowerJobChar c = true := by
  unfold aggregationJobNameFragment at hc
  simp only [List.mem_map] at hc
  obtain ⟨c1, hc1, rfl⟩ := hc
  apply goToLower_lower
  have hc2 : c1 ∈ aggID.map fun c => if isJobNameChar c then c else '-' :=
    List.take_subset _ _ hc1
  simp only [List.mem_map] at hc2
  obtain ⟨c0, _, rfl⟩ := hc2
  by_cases hj : isJobNameChar c0 = true
  · rw [if_pos hj]; exact hj
  · rw [if_neg hj]; decide

theorem frag_length_le (aggID : GoStr) (n : Nat) :
    (aggregationJobNameFragment aggID n).length ≤ n := by
  unfold aggregationJobNameFragment
  simp only [List.length_map, List.length_take]
  omega

theorem dashedTime_length {t : Int} (hy0 : 0 ≤ (dateOf t).year)
    (hy1 : (dateOf t).year ≤ 9999) :
    (replaceAllChar '/' '-' (fmtTime t)).length = 16 := by
  obtain ⟨m1, m2, d1, d2, h1, h2, mi1, mi2⟩ := dateOf_field_bounds t
  unfold replaceAllChar fmtTime renderDate
  rw [List.length_map]
  simp only [List.length_append, List.length_cons]
  rw [padInt_length_of_bounds hy0 (by norm_num; omega) (by norm_num),
    padInt_length_of_bounds (by omega) (by norm_num; omega) (by norm_num),
    padInt_length_of_bounds (by omega) (by norm_num; omega) (by norm_num),
    padInt_length_of_bounds (by omega) (by norm_num; omega) (by norm_num),
    padInt_length_of_bounds (by omega) (by norm_num; omega) (by norm_num)]

theorem dashedTime_chars {t : Int} {c : Char}
    (hc : c ∈ replaceAllChar '/' '-' (fmtTime t)) : isLowerJobChar c = true := by
  unfold replaceAllChar at hc
  simp only [List.mem_map] at hc
  obtain ⟨c0, hc0, rfl⟩ := hc
  by_cases hs : c0 = '/'
  · rw [if_pos hs]; decide
  · rw [if_neg hs]
    rcases renderDate_chars hc0 with h | h | h
    · exact digit_isLowerJob h
    · exact absurd h hs
    · subst h; decide

theorem isCanonicalUUID_filter {s : GoStr} (h : isCanonicalUUID s = true) :
    (s.filter (· ≠ '-')).length = 32 ∧
      ∀ c ∈ s.filter (· ≠ '-'), isHexLowerChar c = true := by
  unfold isCanonicalUUID at h
  split at h
  case h_2 => cases h
  case h_1 a b c d e heq =>
    simp only [Bool.and_eq_true, decide_eq_true_eq, List.all_eq_true] at h
    obtain ⟨⟨⟨⟨⟨ha, hb⟩, hc⟩, hd⟩, he⟩, hall⟩ := h
    have hs_eq : s = a ++ '-' :: (b ++ '-' :: (c ++ '-' :: (d ++ '-' :: e))) := by
      have hj := joinSep_splitOnChar '-' s
      rw [heq] at hj
      simpa [joinSep] using hj.symm
    have hfil : ∀ (l : GoStr), '-' ∉ l → l.filter (· ≠ '-') = l := by
      intro l hl
      rw [List.filter_eq_self]
      intro x hx
      simp only [decide_eq_true_eq]
      rintro rfl
      exact hl hx
    have hkey : ∀ (l r : GoStr), '-' ∉ l →
        (l ++ '-' :: r).filter (· ≠ '-') = l ++ r.filter (· ≠ '-') := by
      intro l r hl
      rw [List.filter_append, hfil l hl, List.filter_cons]
      simp
    have hmem : ∀ p ∈ splitOnChar '-' s, '-' ∉ p := fun p hp =>
      not_mem_of_mem_splitOnChar hp
    rw [heq] at hmem
    simp only [List.mem_cons, List.mem_singleton, forall_eq_or_imp,
      forall_eq] at hmem
    obtain ⟨hna, hnb, hnc, hnd, hne⟩ := hmem
    have hfull : s.filter (· ≠ '-') = a ++ (b ++ (c ++ (d ++ e))) := by
      rw [hs_eq, hkey a _ hna, hkey b _ hnb, hkey c _ hnc, hkey d _ hnd,
        hfil e hne.1]
    constructor
    · rw [hfull]
      simp only [List.length_append]
      omega
    · intro x hx
      rw [hfull] at hx
      apply hall
      simp only [List.mem_append] at hx ⊢
      tauto

/-- Claim C1: the spec says `completion(err)` is invoked exactly once per
`Enqueue` call on either enqueuer.  The code violates this: in
`GCPPubSubEnqueuer.Enqueue`, when the publish fails, the error branch calls
`completion` with the error but does not return, so the following
`completion(nil)` also runs — the completion is invoked twice.  This
evaluation exhibits the failing input (marshal ok, dry-run off, publish
failed): the GCP enqueuer invokes the completion twice (first with the
error, then with nil), while the AWS SNS enqueuer invokes it exactly once on
every input. -/
theorem claim_C1_gcp_completion_invoked_twice_on_publish_failure :
    gcpPubSubEnqueueCompletions true false false = [some (), none] ∧
    (gcpPubSubEnqueueCompletions true false false).length = 2 ∧
    (∀ marshalOk dryRun publishOk : Bool,
      (awsSNSEnqueueCompletions marshalOk dryRun publishOk).length = 1) := by
  decide

/-- Claim C4: for every clock instant, positive period and positive grace
duration, the aggregation interval's end is at most `now - grace`, is an
exact multiple of the period counted from the zero instant, and the
interval's begin is exactly one period before its end. -/
theorem claim_C4_aggregation_interval_correct (now period grace : Int)
    (hp : 0 < period) (hg : 0 < grace) :
    (aggregationInterval now period grace).iend ≤ now - grace ∧
    (aggregationInterval now period grace).iend % period = 0 ∧
    (aggregationInterval now period grace).begin =
      (aggregationInterval now period grace).iend - period := by
  have hT : truncate (now - grace) period =
      now - grace - (now - grace) % period := by
    unfold truncate; rw [if_neg (by omega)]
  refine ⟨?_, ?_, ?_⟩
  · show truncate (now - grace) period ≤ now - grace
    have := Int.emod_nonneg (now - grace) (by omega : period ≠ 0)
    omega
  · show truncate (now - grace) period % period = 0
    rw [hT, Int.sub_emod, Int.emod_emod_of_dvd _ (dvd_refl period), sub_self,
      Int.zero_emod]
  · rfl

/-- Witness for C4 at the spec's scenario constants: `now` =
2021-04-02 10:30 UTC, `period` = 3h, `grace` = 1h (in nanoseconds); the
resulting interval is `[2021-04-02 06:00, 2021-04-02 09:00)`. -/
theorem claim_C4_witness :
    (0 : Int) < 10800000000000 ∧ (0 : Int) < 3600000000000 ∧
    ((aggregationInterval (instantOfDate 2021 4 2 10 30) 10800000000000
        3600000000000).iend ≤ instantOfDate 2021 4 2 10 30 - 3600000000000 ∧
      (aggregationInterval (instantOfDate 2021 4 2 10 30) 10800000000000
        3600000000000).iend % 10800000000000 = 0 ∧
      (aggregationInterval (instantOfDate 2021 4 2 10 30) 10800000000000
        3600000000000).begin =
        (aggregationInterval (instantOfDate 2021 4 2 10 30) 10800000000000
          3600000000000).iend - 10800000000000) :=
  ⟨by decide, by decide,
    claim_C4_aggregation_interval_correct (instantOfDate 2021 4 2 10 30)
      10800000000000 3600000000000 (by decide) (by decide)⟩

/-- Claim C9: the spec says the aggregation path's completion behavior
mirrors the intake path's; in particular, on a successful publish whose
subsequent marker write fails, the aggregation completion — like the intake
completion — should not increment its started counter.  The code differs:
at that input the intake completion returns before `intakesStarted.Inc()`,
but the aggregation completion has no early return after logging the marker
write failure and increments `aggregationsStarted` anyway. -/
theorem claim_C9_counterexample_completion_effects_differ :
    intakeCompletionEffect true false ≠ aggregationCompletionEffect true false ∧
    (intakeCompletionEffect true false).counterInc = false ∧
    (aggregationCompletionEffect true false).counterInc = true := by
  decide

/-- Claim C9 (amended): the two completions write the marker under the same
condition (publish succeeded and the write succeeded), and both skip the
counter when the publish failed; but on a successful publish the intake
completion increments its counter only when the marker write also succeeded,
while the aggregation completion increments its counter unconditionally. -/
theorem claim_C9_amended_completion_effects :
    ∀ publishOk writeOk : Bool,
      (intakeCompletionEffect publishOk writeOk).markerWritten =
        (aggregationCompletionEffect publishOk writeOk).markerWritten ∧
      (intakeCompletionEffect publishOk writeOk).counterInc =
        (publishOk && writeOk) ∧
      (aggregationCompletionEffect publishOk writeOk).counterInc = publishOk := by
  decide

/-- Claim C10: `intakeJobNameForBatchPath` returns (rather than panicking)
exactly when the batch ID has at least 16 characters after removing dashes;
with fewer, the Go slice expression `[:16]` is out of range and panics. -/
theorem claim_C10_intake_job_name_precondition (path : BatchPath) :
    (16 ≤ (path.id.filter (· ≠ '-')).length →
      ∃ n, intakeJobNameForBatchPath path = some n) ∧
    ((path.id.filter (· ≠ '-')).length < 16 →
      intakeJobNameForBatchPath path = none) := by
  unfold intakeJobNameForBatchPath
  constructor
  · intro h
    rw [if_pos h]
    exact ⟨_, rfl⟩
  · intro h
    rw [if_neg (by omega)]

/-- Witness for C10: a 20-hex-character ID yields a job name; the spec's own
scenario ID `uuid-AAAA` (8 non-dash characters) panics. -/
theorem claim_C10_witness :
    (16 ≤ ((str "aaaabbbbccccdddd0000").filter (· ≠ '-')).length ∧
      ∃ n, intakeJobNameForBatchPath
        ⟨str "agg1", str "aaaabbbbccccdddd0000",
          instantOfDate 2021 4 2 10 0⟩ = some n) ∧
    (((str "uuid-AAAA").filter (· ≠ '-')).length < 16 ∧
      intakeJobNameForBatchPath
        ⟨str "agg1", str "uuid-AAAA", instantOfDate 2021 4 2 10 0⟩ = none) :=
  ⟨⟨by decide, (claim_C10_intake_job_name_precondition _).1 (by decide)⟩,
    ⟨by decide, (claim_C10_intake_job_name_precondition _).2 (by decide)⟩⟩

/-- Claim C8: the spec (and the type's own doc comment) say `Timestamp`
marshals to the UTC rendering regardless of the location attached to the
time.  The code formats in the attached location: `MarshalJSON` calls
`String()`, which calls `Format`, and `Format` renders the wall clock of the
time's location.  At the failing input — the instant 2021-04-02 09:30 UTC
carrying a UTC+1 location — the code produces `"2021/04/02/10/30"` where the
claim requires `"2021/04/02/09/30"`. -/
theorem claim_C8_marshal_renders_attached_location :
    timestampMarshalJSON ⟨instantOfDate 2021 4 2 9 30, 60⟩ =
      str "\"2021/04/02/10/30\"" ∧
    specTimestampJSON ⟨instantOfDate 2021 4 2 9 30, 60⟩ =
      str "\"2021/04/02/09/30\"" ∧
    timestampMarshalJSON ⟨instantOfDate 2021 4 2 9 30, 60⟩ ≠
      specTimestampJSON ⟨instantOfDate 2021 4 2 9 30, 60⟩ := by
  decide

/-- Claim C7: for every aggregation ID string and every batch descriptor
whose ID is a UUID string (canonical lowercase form, per RFC 4122 output)
and whose time has a four-digit year (as produced by the `<yyyy>` key
segment), the constructed intake and aggregation job names match
`^[a-z0-9-]{1,63}$`. -/
theorem claim_C7_job_name_legality (aggregationID : GoStr) (path : BatchPath)
    (intervalBegin : Int)
    (huuid : isCanonicalUUID path.id = true)
    (hy0 : 0 ≤ (dateOf path.time).year) (hy1 : (dateOf path.time).year ≤ 9999)
    (hb0 : 0 ≤ (dateOf intervalBegin).year)
    (hb1 : (dateOf intervalBegin).year ≤ 9999) :
    (∃ n, intakeJobNameForBatchPath path = some n ∧ legalJobName n = true) ∧
    legalJobName (aggregationTaskName aggregationID intervalBegin) = true := by
  obtain ⟨hlen32, hhex⟩ := isCanonicalUUID_filter huuid
  have hfrag27 := frag_length_le path.aggregationID 27
  have hfrag30 := frag_length_le aggregationID 30
  have htlen := dashedTime_length hy0 hy1
  have hblen := dashedTime_length hb0 hb1
  constructor
  · have hname : intakeJobNameForBatchPath path =
        some (str "i-" ++ aggregationJobNameFragment path.aggregationID 27
          ++ '-' :: (path.id.filter (· ≠ '-')).take 16
          ++ '-' :: replaceAllChar '/' '-' (fmtTime path.time)) := by
      unfold intakeJobNameForBatchPath
      rw [if_pos (by omega)]
    refine ⟨_, hname, ?_⟩
    unfold legalJobName
    simp only [Bool.and_eq_true, decide_eq_true_eq, List.all_eq_true]
    refine ⟨⟨?_, ?_⟩, ?_⟩
    · simp [str]
    · simp only [List.length_append, List.length_cons, List.length_take,
        htlen, hlen32]
      have h2 : (str "i-").length = 2 := by decide
      omega
    · intro c hcmem
      simp only [List.mem_append, List.mem_cons, or_assoc] at hcmem
      rcases hcmem with h | h | rfl | h | rfl | h
      · have hc2 : c = 'i' ∨ c = '-' := by simpa [str] using h
        rcases hc2 with rfl | rfl <;> decide
      · exact frag_chars h
      · decide
      · exact hexLower_isLowerJob (hhex c (List.take_subset _ _ h))
      · decide
      · exact dashedTime_chars h
  · unfold aggregationTaskName
    unfold legalJobName
    simp only [Bool.and_eq_true, decide_eq_true_eq, List.all_eq_true]
    refine ⟨⟨?_, ?_⟩, ?_⟩
    · simp [str]
    · simp only [List.length_append, List.length_cons, hblen]
      have h2 : (str "a-").length = 2 := by decide
      omega
    · intro c hcmem
      simp only [List.mem_append, List.mem_cons, or_assoc] at hcmem
      rcases hcmem with h | h | rfl | h
      · have hc2 : c = 'a' ∨ c = '-' := by simpa [str] using h
        rcases hc2 with rfl | rfl <;> decide
      · exact frag_chars h
      · decide
      · exact dashedTime_chars h

/-- Witness for C7: the canonical UUID `0f0f0f0f-0f0f-0f0f-0f0f-0f0f0f0f0f0f`
under aggregation ID `agg1`, at batch time 2021-04-02 10:00 UTC with window
begin 2021-04-02 06:00 UTC, yields legal intake and aggregation job names. -/
theorem claim_C7_witness :
    isCanonicalUUID (str "0f0f0f0f-0f0f-0f0f-0f0f-0f0f0f0f0f0f") = true ∧
    (0 ≤ (dateOf (instantOfDate 2021 4 2 10 0)).year ∧
      (dateOf (instantOfDate 2021 4 2 10 0)).year ≤ 9999) ∧
    (0 ≤ (dateOf (instantOfDate 2021 4 2 6 0)).year ∧
      (dateOf (instantOfDate 2021 4 2 6 0)).year ≤ 9999) ∧
    ((∃ n, intakeJobNameForBatchPath
        ⟨str "agg1", str "0f0f0f0f-0f0f-0f0f-0f0f-0f0f0f0f0f0f",
          instantOfDate 2021 4 2 10 0⟩ = some n ∧ legalJobName n = true) ∧
      legalJobName (aggregationTaskName (str "agg1")
        (instantOfDate 2021 4 2 6 0)) = true) :=
  ⟨by decide, ⟨by decide, by decide⟩, ⟨by decide, by decide⟩,
    claim_C7_job_name_legality (str "agg1")
      ⟨str "agg1", str "0f0f0f0f-0f0f-0f0f-0f0f-0f0f0f0f0f0f",
        instantOfDate 2021 4 2 10 0⟩
      (instantOfDate 2021 4 2 6 0)
      (by decide) (by decide) (by decide) (by decide) (by decide)⟩

/-- Inversion of a completed `scheduleTasks` run into its five stages. -/
theorem scheduleTasks_ok_inv {config : ScheduleTasksConfig}
    {writeOk publishOk : GoStr → Bool} {r : ScheduleTasksResult}
    (h : scheduleTasks config writeOk publishOk = .ok r) :
    ∃ intakeBatches ownB peerB,
      readyBatches config.intakeFiles (str "batch") = .ok intakeBatches ∧
      readyBatches config.ownValidationFiles (validityInfix config.isFirst) =
        .ok ownB ∧
      readyBatches config.peerValidationFiles
        (validityInfix (!config.isFirst)) = .ok peerB ∧
      enqueueIntakeTasks config.now
        (withinInterval intakeBatches
          ⟨config.now - config.maxAge, config.now + 86400000000000⟩)
        config.maxAge (taskMarkerSet config.ownValidationFiles)
        config.existingJobs writeOk publishOk = .ok r.intake ∧
      enqueueAggregationTasks
        (groupByAggregationID (withinInterval
          (peerB.filter fun b => decide (b.id ∈ ownB.map (·.id)))
          (aggregationInterval config.now config.aggregationPeriod
            config.gracePeriod)))
        (aggregationInterval config.now config.aggregationPeriod
          config.gracePeriod)
        (taskMarkerSet config.ownValidationFiles) config.existingJobs writeOk
        publishOk = .ok r.agg := by
  unfold scheduleTasks at h
  rcases h1 : readyBatches config.intakeFiles (str "batch") with e | ib
  · rw [h1] at h; cases h
  · rw [h1] at h
    dsimp only [] at h
    rcases h2 : enqueueIntakeTasks config.now
        (withinInterval ib
          ⟨config.now - config.maxAge, config.now + 86400000000000⟩)
        config.maxAge (taskMarkerSet config.ownValidationFiles)
        config.existingJobs writeOk publishOk with e | ist
    · rw [h2] at h; cases h
    · rw [h2] at h
      dsimp only [] at h
      rcases h3 : readyBatches config.ownValidationFiles
          (validityInfix config.isFirst) with e | ob
      · rw [h3] at h; cases h
      · rw [h3] at h
        dsimp only [] at h
        rcases h4 : readyBatches config.peerValidationFiles
            (validityInfix (!config.isFirst)) with e | pb
        · rw [h4] at h; cases h
        · rw [h4] at h
          dsimp only [] at h
          rcases h5 : enqueueAggregationTasks
              (groupByAggregationID (withinInterval
                (pb.filter fun b => decide (b.id ∈ ob.map (·.id)))
                (aggregationInterval config.now config.aggregationPeriod
                  config.gracePeriod)))
              (aggregationInterval config.now config.aggregationPeriod
                config.gracePeriod)
              (taskMarkerSet config.ownValidationFiles) config.existingJobs
              writeOk publishOk with e | ast
          · rw [h5] at h; cases h
          · rw [h5] at h
            dsimp only [] at h
            injection h with h6
            subst h6
            exact ⟨ib, ob, pb, rfl, rfl, rfl, h2, h5⟩

/-- Converse of `scheduleTasks_ok_inv`: a run whose five stages succeed
completes with their results. -/
theorem scheduleTasks_ok_intro {config : ScheduleTasksConfig}
    {writeOk publishOk : GoStr → Bool} {intakeBatches ownB peerB : List BatchPath}
    {ist : IntakeState} {ast : AggregationState}
    (h1 : readyBatches config.intakeFiles (str "batch") = .ok intakeBatches)
    (h3 : readyBatches config.ownValidationFiles
      (validityInfix config.isFirst) = .ok ownB)
    (h4 : readyBatches config.peerValidationFiles
      (validityInfix (!config.isFirst)) = .ok peerB)
    (h2 : enqueueIntakeTasks config.now
      (withinInterval intakeBatches
        ⟨config.now - config.maxAge, config.now + 86400000000000⟩)
      config.maxAge (taskMarkerSet config.ownValidationFiles)
      config.existingJobs writeOk publishOk = .ok ist)
    (h5 : enqueueAggregationTasks
      (groupByAggregationID (withinInterval
        (peerB.filter fun b => decide (b.id ∈ ownB.map (·.id)))
        (aggregationInterval config.now config.aggregationPeriod
          config.gracePeriod)))
      (aggregationInterval config.now config.aggregationPeriod
        config.gracePeriod)
      (taskMarkerSet config.ownValidationFiles) config.existingJobs writeOk
      publishOk = .ok ast) :
    scheduleTasks config writeOk publishOk = .ok ⟨ist, ast⟩ := by
  unfold scheduleTasks
  rw [h1]
  dsimp only []
  rw [h2]
  dsimp only []
  rw [h3]
  dsimp only []
  rw [h4]
  dsimp only []
  rw [h5]

theorem scheduleTasks_markers_no_slash {config : ScheduleTasksConfig}
    {writeOk publishOk : GoStr → Bool} {r : ScheduleTasksResult}
    (h : scheduleTasks config writeOk publishOk = .ok r) :
    ∀ m ∈ r.markersWritten, '/' ∉ m := by
  obtain ⟨ib, ob, pb, h1, h3, h4, h2, h5⟩ := scheduleTasks_ok_inv h
  have hib := readyBatches_no_slash h1
  have hpb := readyBatches_no_slash h4
  intro m hm
  unfold ScheduleTasksResult.markersWritten at hm
  rcases List.mem_append.mp hm with hm' | hm'
  · unfold enqueueIntakeTasks at h2
    refine intakeLoop_written_no_slash h2 ?_ ?_ m hm'
    · intro b hb
      exact hib b (List.mem_filter.mp hb).1
    · intro m' hm''
      cases hm''
  · unfold enqueueAggregationTasks at h5
    split at h5
    · injection h5 with h6
      rw [← h6] at hm'
      cases hm'
    · refine aggLoop_written_no_slash h5 ?_ ?_ m hm'
      · intro g hg b hb
        have hbw : b ∈ withinInterval
            (pb.filter fun b' => decide (b'.id ∈ ob.map (·.id)))
            (aggregationInterval config.now config.aggregationPeriod
              config.gracePeriod) :=
          (groupBy_mem _ b).mp ⟨g, hg, hb⟩
        have hbp : b ∈ pb :=
          (List.mem_filter.mp (List.mem_filter.mp hbw).1).1
        exact (hpb b hbp).1
      · intro m' hm''
        cases hm''

/-- Claim C2 (amended): when every publish and every marker write of the
first run succeeds, running `scheduleTasks` again with the same clock
instant, the same intake/peer listings and jobs map, and the own-validation
listing extended with a `task-markers/<m>` key for every marker `m` written
during the first run, enqueues zero tasks — whatever the second run's
publish/write outcomes.  As stated the claim is false: it quantifies over
first runs with any publish outcomes, and a first run whose publishes fail
writes no markers, so the second run re-enqueues the same tasks
(`claim_C2_counterexample`). -/
theorem claim_C2_idempotent (config : ScheduleTasksConfig)
    (writeOk publishOk writeOk2 publishOk2 : GoStr → Bool)
    (r : ScheduleTasksResult)
    (hw : ∀ m, writeOk m = true) (hp : ∀ m, publishOk m = true)
    (h1 : scheduleTasks config writeOk publishOk = .ok r) :
    ∃ r2 : ScheduleTasksResult,
      scheduleTasks
        { config with ownValidationFiles := config.ownValidationFiles ++
            r.markersWritten.map taskMarkerKeyOf }
        writeOk2 publishOk2 = .ok r2 ∧
      r2.intake.enqueued = [] ∧ r2.agg.enqueued = [] := by
  obtain ⟨ib, ob, pb, hrb1, hrb3, hrb4, hen2, hen5⟩ := scheduleTasks_ok_inv h1
  have hns := scheduleTasks_markers_no_slash h1
  have hskip : ∀ k ∈ r.markersWritten.map taskMarkerKeyOf,
      parseKey k = .skip := by
    intro k hk
    obtain ⟨m, hm, rfl⟩ := List.mem_map.mp hk
    exact parseKey_marker_skip (hns m hm)
  have hset : taskMarkerSet (config.ownValidationFiles ++
      r.markersWritten.map taskMarkerKeyOf) =
      taskMarkerSet config.ownValidationFiles ++ r.markersWritten :=
    taskMarkerSet_append _ _
  have hen2' : enqueueIntakeTasksLoop config.now config.maxAge
      (taskMarkerSet config.ownValidationFiles) config.existingJobs writeOk
      publishOk
      (withinInterval ib
        ⟨config.now - config.maxAge, config.now + 86400000000000⟩)
      initIntakeState = .ok r.intake := hen2
  have hintakeCov : ∀ b ∈ withinInterval ib
      ⟨config.now - config.maxAge, config.now + 86400000000000⟩,
      config.maxAge < config.now - b.time ∨
        (intakeTaskOf b).Marker ∈
          taskMarkerSet config.ownValidationFiles ++ r.markersWritten := by
    intro b hb
    rcases intakeLoop_covered hw hp hen2' b hb with hage | hmk | hwr
    · exact Or.inl hage
    · exact Or.inr (List.mem_append.mpr (Or.inl hmk))
    · exact Or.inr (List.mem_append.mpr (Or.inr
        (List.mem_append.mpr (Or.inl hwr))))
  obtain ⟨ist2, hist2, hie⟩ := @intakeLoop_all_marked config.now config.maxAge
    (taskMarkerSet config.ownValidationFiles ++ r.markersWritten)
    config.existingJobs writeOk2 publishOk2
    (withinInterval ib
      ⟨config.now - config.maxAge, config.now + 86400000000000⟩)
    hintakeCov initIntakeState
  have haggCov : ∀ g ∈ groupByAggregationID (withinInterval
      (pb.filter fun b => decide (b.id ∈ ob.map (·.id)))
      (aggregationInterval config.now config.aggregationPeriod
        config.gracePeriod)),
      ∃ first rest0 bs, g.2 = first :: rest0 ∧
        buildBatches first.aggregationID (first :: rest0) = .ok bs ∧
        (⟨first.aggregationID,
          (aggregationInterval config.now config.aggregationPeriod
            config.gracePeriod).begin,
          (aggregationInterval config.now config.aggregationPeriod
            config.gracePeriod).iend, bs⟩ : Aggregation).Marker ∈
          taskMarkerSet config.ownValidationFiles ++ r.markersWritten := by
    intro g hg
    obtain ⟨first, rest0, bs, hready, hbb, hcase⟩ :=
      enqueueAggregationTasks_covered hw hp hen5 g hg
    refine ⟨first, rest0, bs, hready, hbb, ?_⟩
    rcases hcase with h' | h'
    · exact List.mem_append.mpr (Or.inl h')
    · exact List.mem_append.mpr (Or.inr (List.mem_append.mpr (Or.inr h')))
  obtain ⟨ast2, hast2, hae⟩ := @enqueueAggregationTasks_all_marked
    (aggregationInterval config.now config.aggregationPeriod
      config.gracePeriod)
    (taskMarkerSet config.ownValidationFiles ++ r.markersWritten)
    config.existingJobs writeOk2 publishOk2
    (groupByAggregationID (withinInterval
      (pb.filter fun b => decide (b.id ∈ ob.map (·.id)))
      (aggregationInterval config.now config.aggregationPeriod
        config.gracePeriod)))
    haggCov
  rw [← hset] at hist2 hast2
  exact ⟨⟨ist2, ast2⟩,
    scheduleTasks_ok_intro hrb1 ((readyBatches_append_skip hskip).trans hrb3)
      hrb4 hist2 hast2, hie, hae⟩

/-- Counterexample to claim C2 as stated: with every publish failing, the
first run on the witness scenario completes, enqueues an intake task and an
aggregation task, and writes no marker at all; the back-to-back second run
— whose own-validation listing contains a `task-markers/<m>` key for every
marker written during the first run, namely none — enqueues the very same
tasks again rather than zero. -/
theorem claim_C2_counterexample :
    scheduleTasks witnessConfig (fun _ => true) (fun _ => false) =
      .ok c2FailResult ∧
    c2FailResult.markersWritten.map taskMarkerKeyOf = [] ∧
    scheduleTasks { witnessConfig with ownValidationFiles :=
        witnessConfig.ownValidationFiles ++
          c2FailResult.markersWritten.map taskMarkerKeyOf }
      (fun _ => true) (fun _ => false) = .ok c2FailResult ∧
    c2FailResult.intake.enqueued ≠ [] ∧ c2FailResult.agg.enqueued ≠ [] := by
  refine ⟨by decide, rfl, by decide, by decide, by decide⟩

/-- Witness for C2: the amended idempotence theorem applied to the witness
scenario with every publish and write succeeding — the second run, over the
listing extended with the two written markers, enqueues nothing. -/
theorem claim_C2_witness :
    ∃ r2 : ScheduleTasksResult,
      scheduleTasks
        { witnessConfig with ownValidationFiles :=
            witnessConfig.ownValidationFiles ++
              witnessResult.markersWritten.map taskMarkerKeyOf }
        (fun _ => true) (fun _ => true) = .ok r2 ∧
      r2.intake.enqueued = [] ∧ r2.agg.enqueued = [] :=
  claim_C2_idempotent witnessConfig (fun _ => true) (fun _ => true)
    (fun _ => true) (fun _ => true) witnessResult (fun _ => rfl) (fun _ => rfl)
    (by decide)

/-- Claim C3: every task passed to `Enqueue` during a completed
`scheduleTasks` run has a marker absent from the pre-run marker set (the
`task-markers/`-prefixed keys of the own-validation listing with the prefix
stripped) and a computed job name absent from the pre-run existing-jobs
map.  For aggregation tasks the computed job name is
`aggregationTaskName` of the task's aggregation ID and the window begin,
which the task carries as its `aggregationStart`. -/
theorem claim_C3_enqueued_tasks_fresh (config : ScheduleTasksConfig)
    (writeOk publishOk : GoStr → Bool) (r : ScheduleTasksResult)
    (h : scheduleTasks config writeOk publishOk = .ok r) :
    (∀ t ∈ r.intake.enqueued,
      t.Marker ∉ taskMarkerSet config.ownValidationFiles ∧
      ∀ n, intakeJobNameForBatchPath ⟨t.aggregationID, t.batchID, t.date⟩ =
        some n → n ∉ config.existingJobs) ∧
    (∀ t ∈ r.agg.enqueued,
      t.Marker ∉ taskMarkerSet config.ownValidationFiles ∧
      aggregationTaskName t.aggregationID t.aggregationStart ∉
        config.existingJobs) := by
  obtain ⟨ib, ob, pb, h1, h3, h4, heqIntake, heqAgg⟩ := scheduleTasks_ok_inv h
  constructor
  · intro t ht
    unfold enqueueIntakeTasks at heqIntake
    rcases intakeLoop_enqueued_spec heqIntake t ht with h0 | hfresh
    · cases h0
    · exact hfresh
  · intro t ht
    unfold enqueueAggregationTasks at heqAgg
    split at heqAgg
    · injection heqAgg with h6
      rw [← h6] at ht
      cases ht
    · rcases aggLoop_enqueued_spec heqAgg t ht with h0 | hfresh
      · cases h0
      · obtain ⟨hm, hn, hstart, _⟩ := hfresh
        rw [hstart]
        exact ⟨hm, hn⟩

/-- Witness for C3 at the combined S1/S4 scenario: the one intake task and
the one aggregation task that the run enqueues are checked fresh. -/
theorem claim_C3_witness :
    (witnessIntakeTask.Marker ∉ taskMarkerSet witnessConfig.ownValidationFiles ∧
      ∀ n, intakeJobNameForBatchPath
        ⟨witnessIntakeTask.aggregationID, witnessIntakeTask.batchID,
          witnessIntakeTask.date⟩ = some n → n ∉ witnessConfig.existingJobs) ∧
    (witnessAggTask.Marker ∉ taskMarkerSet witnessConfig.ownValidationFiles ∧
      aggregationTaskName witnessAggTask.aggregationID
        witnessAggTask.aggregationStart ∉ witnessConfig.existingJobs) := by
  have h := claim_C3_enqueued_tasks_fresh witnessConfig (fun _ => true)
    (fun _ => true) witnessResult (by decide)
  exact ⟨h.1 witnessIntakeTask (by decide), h.2 witnessAggTask (by decide)⟩

/-- Claim C6: for every candidate task (intake or aggregation) whose marker
is absent from the pre-run marker set but whose job name is present in the
existing-jobs map, the emission loop writes the task's marker synchronously
and does not enqueue the task; and if that healing marker write fails, the
loop returns an error (which `scheduleTasks` turns into `log.Fatal`) instead
of continuing.  Stated for both `enqueueIntakeTasks` and
`enqueueAggregationTasks`, each with its success and its write-failure
half. -/
theorem claim_C6_healing :
    (∀ (now ageLimit : Int) (taskMarkers existingJobs : List GoStr)
        (writeOk publishOk : GoStr → Bool) (batches : List BatchPath)
        (st' : IntakeState) (b : BatchPath) (n : GoStr),
      enqueueIntakeTasks now batches ageLimit taskMarkers existingJobs
        writeOk publishOk = .ok st' →
      b ∈ batches → now - b.time ≤ ageLimit →
      (intakeTaskOf b).Marker ∉ taskMarkers →
      intakeJobNameForBatchPath b = some n → n ∈ existingJobs →
      (intakeTaskOf b).Marker ∈ st'.markersWritten ∧
        intakeTaskOf b ∉ st'.enqueued) ∧
    (∀ (now ageLimit : Int) (taskMarkers existingJobs : List GoStr)
        (writeOk publishOk : GoStr → Bool) (batches : List BatchPath)
        (b : BatchPath) (n : GoStr),
      b ∈ batches → now - b.time ≤ ageLimit →
      (intakeTaskOf b).Marker ∉ taskMarkers →
      intakeJobNameForBatchPath b = some n → n ∈ existingJobs →
      writeOk (intakeTaskOf b).Marker = false →
      ∀ st', enqueueIntakeTasks now batches ageLimit taskMarkers existingJobs
        writeOk publishOk ≠ .ok st') ∧
    (∀ (inter : Interval) (taskMarkers existingJobs : List GoStr)
        (writeOk publishOk : GoStr → Bool)
        (groups : List (GoStr × List BatchPath)) (st' : AggregationState)
        (g : GoStr × List BatchPath) (first : BatchPath)
        (rest0 : List BatchPath) (bs : List TaskBatch),
      enqueueAggregationTasks groups inter taskMarkers existingJobs writeOk
        publishOk = .ok st' →
      g ∈ groups → g.2 = first :: rest0 →
      buildBatches first.aggregationID g.2 = .ok bs →
      (⟨first.aggregationID, inter.begin, inter.iend, bs⟩ :
        Aggregation).Marker ∉ taskMarkers →
      aggregationTaskName first.aggregationID inter.begin ∈ existingJobs →
      (⟨first.aggregationID, inter.begin, inter.iend, bs⟩ :
          Aggregation).Marker ∈ st'.markersWritten ∧
        (⟨first.aggregationID, inter.begin, inter.iend, bs⟩ :
          Aggregation) ∉ st'.enqueued) ∧
    (∀ (inter : Interval) (taskMarkers existingJobs : List GoStr)
        (writeOk publishOk : GoStr → Bool)
        (groups : List (GoStr × List BatchPath))
        (g : GoStr × List BatchPath) (first : BatchPath)
        (rest0 : List BatchPath) (bs : List TaskBatch),
      g ∈ groups → g.2 = first :: rest0 →
      buildBatches first.aggregationID g.2 = .ok bs →
      (⟨first.aggregationID, inter.begin, inter.iend, bs⟩ :
        Aggregation).Marker ∉ taskMarkers →
      aggregationTaskName first.aggregationID inter.begin ∈ existingJobs →
      writeOk (⟨first.aggregationID, inter.begin, inter.iend, bs⟩ :
        Aggregation).Marker = false →
      ∀ st', enqueueAggregationTasks groups inter taskMarkers existingJobs
        writeOk publishOk ≠ .ok st') := by
  refine ⟨?_, ?_, ?_, ?_⟩
  · intro now ageLimit taskMarkers existingJobs writeOk publishOk batches st'
      b n h hb hage hmk hname hjobs
    exact intakeLoop_heal h hb hage hmk hname hjobs (by simp [initIntakeState])
  · intro now ageLimit taskMarkers existingJobs writeOk publishOk batches b n
      hb hage hmk hname hjobs hw st'
    exact intakeLoop_heal_write_failure_aborts hb hage hmk hname hjobs hw _ _
  · intro inter taskMarkers existingJobs writeOk publishOk groups st' g first
      rest0 bs h hg hready hbuild hmk hjobs
    unfold enqueueAggregationTasks at h
    split at h
    · rename_i hempty
      rw [List.isEmpty_iff] at hempty
      subst hempty
      cases hg
    · exact aggLoop_heal h hg hready hbuild hmk hjobs
        (by simp [initAggregationState])
  · intro inter taskMarkers existingJobs writeOk publishOk groups g first
      rest0 bs hg hready hbuild hmk hjobs hw st' h
    unfold enqueueAggregationTasks at h
    split at h
    · rename_i hempty
      rw [List.isEmpty_iff] at hempty
      subst hempty
      cases hg
    · exact aggLoop_heal_write_failure_aborts hg hready hbuild hmk hjobs hw
        _ _ h

/-- Witness for C6 at the S6 healing scenarios: with a pre-existing job and
no marker, the intake and aggregation loops write the marker and enqueue
nothing; with the same scenarios and a failing marker write, both loops
return an error. -/
theorem claim_C6_witness :
    ((intakeTaskOf healBatch).Marker ∈ healIntakeResult.markersWritten ∧
      intakeTaskOf healBatch ∉ healIntakeResult.enqueued) ∧
    (∀ st', enqueueIntakeTasks witnessNow [healBatch] hourNs []
      healIntakeJobs (fun _ => false) (fun _ => true) ≠ .ok st') ∧
    ((⟨str "agg1", healAggInterval.begin, healAggInterval.iend,
        [⟨str "uuid-B", instantOfDate 2021 4 2 7 0⟩]⟩ :
        Aggregation).Marker ∈ healAggResult.markersWritten ∧
      (⟨str "agg1", healAggInterval.begin, healAggInterval.iend,
        [⟨str "uuid-B", instantOfDate 2021 4 2 7 0⟩]⟩ :
        Aggregation) ∉ healAggResult.enqueued) ∧
    (∀ st', enqueueAggregationTasks [healAggGroup] healAggInterval []
      healAggJobs (fun _ => false) (fun _ => true) ≠ .ok st') := by
  obtain ⟨p1, p2, p3, p4⟩ := claim_C6_healing
  refine ⟨?_, ?_, ?_, ?_⟩
  · exact p1 witnessNow hourNs [] healIntakeJobs (fun _ => true)
      (fun _ => true) [healBatch] healIntakeResult healBatch
      (str "i-agg1-0123456789abcdef-2021-04-02-10-00")
      (by decide) (by decide) (by decide) (by decide) (by decide) (by decide)
  · exact p2 witnessNow hourNs [] healIntakeJobs (fun _ => false)
      (fun _ => true) [healBatch] healBatch
      (str "i-agg1-0123456789abcdef-2021-04-02-10-00")
      (by decide) (by decide) (by decide) (by decide) (by decide) (by decide)
  · exact p3 healAggInterval [] healAggJobs (fun _ => true) (fun _ => true)
      [healAggGroup] healAggResult healAggGroup
      ⟨str "agg1", str "uuid-B", instantOfDate 2021 4 2 7 0⟩ []
      [⟨str "uuid-B", instantOfDate 2021 4 2 7 0⟩]
      (by decide) (by decide) (by decide) (by decide) (by decide) (by decide)
  · exact p4 healAggInterval [] healAggJobs (fun _ => false) (fun _ => true)
      [healAggGroup] healAggGroup
      ⟨str "agg1", str "uuid-B", instantOfDate 2021 4 2 7 0⟩ []
      [⟨str "uuid-B", instantOfDate 2021 4 2 7 0⟩]
      (by decide) (by decide) (by decide) (by decide) (by decide) (by decide)

/-- Claim C5 as stated is false on the code: the aggregation emission loop
skips any group whose marker already exists (or whose job name exists), so
the batch IDs of emitted tasks can be a strict subset of the windowed
intersection.  Concretely, `c5Config` has one batch (`uuid-B`) in the
intersection and in the window, but also a pre-existing marker object for
the aggregation task, so the run emits no aggregation task at all. -/
theorem claim_C5_counterexample :
    scheduleTasks c5Config (fun _ => true) (fun _ => true) = .ok c5Result ∧
    readyBatches c5Config.ownValidationFiles (validityInfix c5Config.isFirst) =
      .ok witnessOwnBatches ∧
    readyBatches c5Config.peerValidationFiles
      (validityInfix (!c5Config.isFirst)) = .ok witnessPeerBatches ∧
    str "uuid-B" ∈ specIntersectionIDs witnessOwnBatches witnessPeerBatches
      (aggregationInterval c5Config.now c5Config.aggregationPeriod
        c5Config.gracePeriod) ∧
    ¬∃ t ∈ c5Result.agg.enqueued, ∃ b ∈ t.batches, b.id = str "uuid-B" := by
  decide

/-- Claim C5 (amended): when the pre-run marker set and the existing-jobs
map are empty (so no dedup applies), the set of batch IDs appearing in
emitted aggregation tasks equals the intersection of the own-validation
and peer-validation batch IDs restricted to the half-open aggregation
window, and every batch carried by an emitted task is a peer-validation
descriptor. -/
theorem claim_C5_intersection (config : ScheduleTasksConfig)
    (writeOk publishOk : GoStr → Bool) (r : ScheduleTasksResult)
    (ownB peerB : List BatchPath)
    (hm : taskMarkerSet config.ownValidationFiles = [])
    (hj : config.existingJobs = [])
    (h : scheduleTasks config writeOk publishOk = .ok r)
    (hOwn : readyBatches config.ownValidationFiles
      (validityInfix config.isFirst) = .ok ownB)
    (hPeer : readyBatches config.peerValidationFiles
      (validityInfix (!config.isFirst)) = .ok peerB) :
    (∀ idv, (∃ t ∈ r.agg.enqueued, ∃ b ∈ t.batches, b.id = idv) ↔
      idv ∈ specIntersectionIDs ownB peerB
        (aggregationInterval config.now config.aggregationPeriod
          config.gracePeriod)) ∧
    (∀ t ∈ r.agg.enqueued, ∀ b ∈ t.batches,
      ∃ p ∈ peerB, b.id = p.id ∧ b.time = p.time) := by
  obtain ⟨ib, ob, pb, h1, h3, h4, heqIntake, heqAgg⟩ := scheduleTasks_ok_inv h
  rw [hOwn] at h3
  injection h3 with h3
  subst h3
  rw [hPeer] at h4
  injection h4 with h4
  subst h4
  rw [hm, hj] at heqAgg
  set inter := aggregationInterval config.now config.aggregationPeriod
    config.gracePeriod with hinter
  set windowed := withinInterval
    (peerB.filter fun b => decide (b.id ∈ ownB.map (·.id))) inter
    with hwindowed
  have hbatches : ∀ tb : TaskBatch, (∃ t ∈ r.agg.enqueued, tb ∈ t.batches) ↔
      ∃ bp ∈ windowed, tb = (⟨bp.id, bp.time⟩ : TaskBatch) := by
    intro tb
    unfold enqueueAggregationTasks at heqAgg
    split at heqAgg
    · rename_i hempty
      rw [List.isEmpty_iff] at hempty
      injection heqAgg with h6
      constructor
      · rintro ⟨t, ht, _⟩
        rw [← h6] at ht
        cases ht
      · rintro ⟨bp, hbp, _⟩
        have := (groupBy_mem windowed bp).mpr hbp
        rw [hempty] at this
        obtain ⟨g, hg, _⟩ := this
        cases hg
    · rw [aggLoop_enqueued_batches heqAgg tb]
      simp only [initAggregationState, List.not_mem_nil, false_and,
        exists_false, exists_const, false_or]
      constructor
      · rintro ⟨g, hg, bp, hbp, rfl⟩
        exact ⟨bp, (groupBy_mem windowed bp).mp ⟨g, hg, hbp⟩, rfl⟩
      · rintro ⟨bp, hbp, rfl⟩
        obtain ⟨g, hg, hbg⟩ := (groupBy_mem windowed bp).mpr hbp
        exact ⟨g, hg, bp, hbg, rfl⟩
  constructor
  · intro idv
    rw [mem_specIntersectionIDs_iff]
    constructor
    · rintro ⟨t, ht, b, hb, rfl⟩
      obtain ⟨bp, hbp, rfl⟩ := (hbatches b).mp ⟨t, ht, hb⟩
      obtain ⟨hpeer, hidmem, hlo, hhi⟩ := (mem_windowed_iff _ _ _ _).mp hbp
      exact ⟨bp, hpeer, rfl, hidmem, hlo, hhi⟩
    · rintro ⟨p, hpeer, rfl, hidmem, hlo, hhi⟩
      have hpw : p ∈ windowed :=
        (mem_windowed_iff _ _ _ _).mpr ⟨hpeer, hidmem, hlo, hhi⟩
      obtain ⟨t, ht, hb⟩ := (hbatches ⟨p.id, p.time⟩).mpr ⟨p, hpw, rfl⟩
      exact ⟨t, ht, ⟨p.id, p.time⟩, hb, rfl⟩
  · intro t ht b hb
    obtain ⟨bp, hbp, rfl⟩ := (hbatches b).mp ⟨t, ht, hb⟩
    obtain ⟨hpeer, _, _, _⟩ := (mem_windowed_iff _ _ _ _).mp hbp
    exact ⟨bp, hpeer, rfl, rfl⟩

/-- Witness for C5 (amended) at `witnessConfig`: the run emits exactly the
batch `uuid-B`, matching the windowed intersection. -/
theorem claim_C5_witness :
    taskMarkerSet witnessConfig.ownValidationFiles = [] ∧
    witnessConfig.existingJobs = [] ∧
    ((∃ t ∈ witnessResult.agg.enqueued, ∃ b ∈ t.batches,
        b.id = str "uuid-B") ↔
      str "uuid-B" ∈ specIntersectionIDs witnessOwnBatches witnessPeerBatches
        (aggregationInterval witnessConfig.now
          witnessConfig.aggregationPeriod witnessConfig.gracePeriod)) :=
  ⟨by decide, by decide,
    (claim_C5_intersection witnessConfig (fun _ => true) (fun _ => true)
      witnessResult witnessOwnBatches witnessPeerBatches (by decide)
      (by decide) (by decide) (by decide) (by decide)).1 (str "uuid-B")⟩

end WorkflowManager
